import Mathlib

/-! # mcsema debug-location core (`mcsema/BC/Dbg.h`, `mcsema/BC/Dbg.cpp`)

A shallow embedding of the address-to-line table, the per-function debug-scope
cache, the forward-fill cursor and the per-block backfill propagator, followed by
theorems about them.

Conventions of the embedding:

* machine integers are `Nat`, reduced modulo `2^64` / `2^32` where the source
  converts or can overflow;
* a nullable pointer is an `Option`;
* operations whose C++ behaviour is undefined on some inputs (indexing a vector
  past its end, dereferencing an `end()` iterator) return `Except Fault _`;
* `std::map` is a list of entries in ascending key order, `std::unordered_map`
  a list of entries in the container's (implementation-defined) iteration
  order;
* text is processed as `List Char`.
-/

set_option autoImplicit false

namespace mcsema

/-! ## Faults -/

/-- The ways in which the source can leave defined behaviour. -/
inductive Fault where
  /-- `operator[]` of a `std::vector` with an index that is not below its size. -/
  | indexOutOfRange
  /-- Dereferencing the `end()` iterator of a container. -/
  | derefEnd
  /-- Dereferencing a null pointer, or a pointer to an object that is not there. -/
  | invalidPointer
  deriving DecidableEq, Repr

deriving instance DecidableEq for Except

/-! ## C library and `llvm::StringRef` helpers -/

/-- `isspace` of the C locale: space, `\t`, `\n`, `\v`, `\f`, `\r`. -/
def isspace (c : Char) : Bool :=
  c.toNat = 32 || (9 ≤ c.toNat && c.toNat ≤ 13)

/-- Value of a character as a digit (`0-9`, `a-z`, `A-Z`), as `strtoul` reads it. -/
def digitValue (c : Char) : Option Nat :=
  let n := c.toNat
  if 48 ≤ n ∧ n ≤ 57 then some (n - 48)
  else if 97 ≤ n ∧ n ≤ 122 then some (n - 87)
  else if 65 ≤ n ∧ n ≤ 90 then some (n - 55)
  else none

/-- The longest run of digits valid in `base`, accumulated from `acc`. -/
def strtoul.digits (base : Nat) : List Char → Nat → Nat
  | [], acc => acc
  | c :: t, acc =>
    match digitValue c with
    | some d => if d < base then strtoul.digits base t (acc * base + d) else acc
    | none => acc

/-- Drops an optional sign. -/
def strtoul.skipSign : List Char → List Char
  | [] => []
  | c :: t => if c = '-' ∨ c = '+' then t else c :: t

/-- Drops a `0x` / `0X` that is followed by a hexadecimal digit (base 16 only). -/
def strtoul.skipHexMark : List Char → List Char
  | c0 :: c1 :: c2 :: t =>
    if c0 = '0' ∧ (c1 = 'x' ∨ c1 = 'X') ∧ (digitValue c2).any (fun d => decide (d < 16)) then c2 :: t
    else c0 :: c1 :: c2 :: t
  | s => s

/-- Largest `unsigned long` (LP64). -/
def ULONG_MAX : Nat := 2 ^ 64 - 1

/-- The function `std::strtoul(str, nullptr, base)` of ISO C on an LP64 target: skips
leading white space, an optional sign and (base 16) an optional `0x`, converts the
longest run of digits, yields `0` when there is none, `ULONG_MAX` on overflow and the
negation modulo `2^64` after a minus sign. -/
def strtoul (str : List Char) (base : Nat) : Nat :=
  let s := str.dropWhile isspace
  let neg := s.head? = some '-'
  let s := strtoul.skipSign s
  let s := if base = 16 then strtoul.skipHexMark s else s
  let v := strtoul.digits base s 0
  if ULONG_MAX < v then ULONG_MAX
  else if neg then (2 ^ 64 - v) % 2 ^ 64
  else v

/-- `StringRef::split(sep).second` and `.first`: the text is cut at the first
occurrence of `sep`; without one the second half is empty. -/
def StringRef.split (sep : Char) : List Char → List Char × List Char
  | [] => ([], [])
  | c :: t =>
    if c = sep then ([], t)
    else ((c :: (StringRef.split sep t).1), (StringRef.split sep t).2)

/-- `StringRef::contains(needle)`. -/
def StringRef.contains (needle : List Char) : List Char → Bool
  | [] => needle.isEmpty
  | c :: t => needle.isPrefixOf (c :: t) || StringRef.contains needle t

/-- `StringRef::endswith(suffix)`. -/
def StringRef.endswith (s suffix : List Char) : Bool :=
  suffix.isSuffixOf s

/-! ## Debug-info nodes

The nodes are built by LLVM's `DIBuilder` and `DILocation::get`; only what the
core passes to the builders is recorded. -/

/-- An `llvm::DIFile`, uniqued by its contents. -/
structure DIFile where
  filename : String
  directory : String
  deriving DecidableEq, Repr

/-- An `llvm::DICompileUnit`. -/
structure DICompileUnit where
  file : DIFile
  producer : String
  deriving DecidableEq, Repr

/-- An `llvm::DISubprogram` built by `createFunction` with `isDefinition = true`:
a distinct node, so every call of the builder yields a node with a new identity `id`. -/
structure DISubprogram where
  id : Nat
  scope : DIFile
  name : String
  linkageName : String
  file : DIFile
  lineNo : Nat
  scopeLine : Nat
  deriving DecidableEq, Repr

/-- An `llvm::DILocation`, uniqued by its contents. -/
structure DILocation where
  line : Nat
  column : Nat
  scope : Option DISubprogram
  deriving DecidableEq, Repr

/-- The call `DILocation::get(ctx, Line, Column, Scope)`; `Line` is an `unsigned`. -/
def DILocation.get (line column : Nat) (scope : Option DISubprogram) : DILocation :=
  { line := line % 2 ^ 32, column := column, scope := scope }

/-! ## Functions, blocks, instructions -/

/-- An `llvm::Instruction`, reduced to its debug location (`getDebugLoc` / `setDebugLoc`). -/
structure Instruction where
  debugLoc : Option DILocation
  deriving DecidableEq, Repr

/-- An `llvm::BasicBlock`: its name (empty when `hasName()` is false) and instructions. -/
structure BasicBlock where
  name : String
  insts : List Instruction
  deriving DecidableEq, Repr

/-- An `llvm::Function *` as the cache uses it: the address of the object with the two
attributes the cache reads through the pointer, its name and whether
`remill::HasOriginType<remill::LiftedFunction>` holds. One object has one name and one
origin, so comparing these handles is comparing pointers. -/
structure FunctionPtr where
  addr : Nat
  name : String
  lifted : Bool
  deriving DecidableEq, Repr

/-- An `llvm::Function` of a module: the handle and the blocks. -/
structure Function where
  ptr : FunctionPtr
  blocks : List BasicBlock
  deriving DecidableEq, Repr

/-- An `llvm::Module`, as the list of its functions. -/
abbrev Module := List Function

/-! ## `Lines`: `std::map< uint64_t, llvm::DILocation * >` -/

/-- The ordered map from address to location, as its entries in ascending key order.
The only values ever inserted come from `DILocation::get`, hence are not null. -/
abbrev Lines := List (Nat × DILocation)

/-- Representation invariant of `Lines`: strictly ascending keys. -/
def Lines.Ordered (l : Lines) : Prop :=
  List.Pairwise (fun a b => a.1 < b.1) l

instance (l : Lines) : Decidable (Lines.Ordered l) := by
  unfold Lines.Ordered; infer_instance

/-- `lines.find(ea)`, as the value found (`none` for `end()`). -/
def Lines.find : Lines → Nat → Option DILocation
  | [], _ => none
  | e :: t, ea => if e.1 = ea then some e.2 else Lines.find t ea

/-- `lines.count(ea)`. -/
def Lines.count (l : Lines) (ea : Nat) : Nat :=
  if (Lines.find l ea).isSome then 1 else 0

/-- `lines.lower_bound(ea)`, as the position of the first entry whose key is not
less than `ea`; the length of the list stands for `end()`. -/
def Lines.lower_bound : Lines → Nat → Nat
  | [], _ => 0
  | e :: t, ea => if ea ≤ e.1 then 0 else Lines.lower_bound t ea + 1

/-- `lines.insert({ea, node})`: an entry whose key is present is left as it is. -/
def Lines.insert : Lines → Nat → DILocation → Lines
  | [], ea, node => [(ea, node)]
  | e :: t, ea, node =>
    if ea < e.1 then (ea, node) :: e :: t
    else if ea = e.1 then e :: t
    else e :: Lines.insert t ea node

/-! ## `Propagate` (Dbg.h) -/

/-- `Propagate::Ea`. -/
def Propagate.Ea (bb : BasicBlock) : Option Nat :=
  if bb.name.toList.isEmpty then none
  else
    let suffix := (StringRef.split '_' bb.name.toList).2
    let ea := strtoul suffix 16
    if ea = 0 then none else some ea

/-- `Propagate::BlockLine`. The iterator `dil` is a position in `lines`; dereferencing
it at `end()` is a fault. -/
def Propagate.BlockLine (lines : Lines) (bb : BasicBlock) : Except Fault (Option DILocation) :=
  match Propagate.Ea bb with
  | none => .ok none
  | some ea =>
    let dil := Lines.lower_bound lines ea
    let dil := if dil ≠ 0 then dil - 1 else dil
    match lines[dil]? with
    | some e => .ok (some e.2)
    | none => .error Fault.derefEnd

/-- `Propagate::ExactLine`. -/
def Propagate.ExactLine (lines : Lines) (bb : BasicBlock) : Option DILocation :=
  match Propagate.Ea bb with
  | none => none
  | some ea => Lines.find lines ea

/-- `Propagate::Init`. -/
def Propagate.Init (lines : Lines) (bb : BasicBlock) : Except Fault (Option DILocation) :=
  match Propagate.ExactLine lines bb with
  | some exact => .ok (some exact)
  | none => Propagate.BlockLine lines bb

/-- The loop of `Propagate::Work` over the instructions, `dil` being the running location. -/
def Propagate.Work.loop : Option DILocation → List Instruction → List Instruction
  | _, [] => []
  | dil, inst :: rest =>
    match inst.debugLoc with
    | some loc =>
      match dil with
      | some d =>
        if loc.line ≤ d.line then { inst with debugLoc := some d } :: Propagate.Work.loop dil rest
        else inst :: Propagate.Work.loop (some loc) rest
      | none => inst :: Propagate.Work.loop (some loc) rest
    | none =>
      match dil with
      | some d => { inst with debugLoc := some d } :: Propagate.Work.loop dil rest
      | none => inst :: Propagate.Work.loop dil rest

/-- `Propagate::Work`. -/
def Propagate.Work (lines : Lines) (bb : BasicBlock) : Except Fault BasicBlock :=
  match Propagate.Init lines bb with
  | .error e => .error e
  | .ok dil => .ok { bb with insts := Propagate.Work.loop dil bb.insts }

/-- The loop `for (auto &bb : func) Work(bb)` of `Propagate::Run`. -/
def Propagate.Run.blocks (lines : Lines) : List BasicBlock → Except Fault (List BasicBlock)
  | [] => .ok []
  | bb :: rest =>
    match Propagate.Work lines bb with
    | .error e => .error e
    | .ok bb1 =>
      match Propagate.Run.blocks lines rest with
      | .error e => .error e
      | .ok rest1 => .ok (bb1 :: rest1)

/-- `Propagate::Run`. `func.begin()->begin()` is dereferenced: a function without
blocks, or whose first block has no instruction, is a fault. -/
def Propagate.Run (func : Function) (lines : Lines) : Except Fault Function :=
  match func.blocks with
  | [] => .error Fault.derefEnd
  | entry :: _ =>
    match entry.insts with
    | [] => .error Fault.derefEnd
    | first :: _ =>
      if first.debugLoc.isNone then .ok func
      else
        match Propagate.Run.blocks lines func.blocks with
        | .error e => .error e
        | .ok bs => .ok { func with blocks := bs }

/-! ## `std::unordered_map` -/

/-- A `std::unordered_map`, as its entries in iteration order. -/
abbrev UMap (K V : Type) := List (K × V)

/-- `m.find(k)`, as the value found (`none` for `end()`). -/
def UMap.find {K V : Type} [DecidableEq K] : UMap K V → K → Option V
  | [], _ => none
  | e :: t, k => if e.1 = k then some e.2 else UMap.find t k

/-- `m.count(k)`. -/
def UMap.count {K V : Type} [DecidableEq K] (m : UMap K V) (k : K) : Nat :=
  if (UMap.find m k).isSome then 1 else 0

/-- `m.insert({k, v})`: nothing happens when the key is present; a new entry lands at
the position `slot k keys` of the iteration order (at the end when that is too large),
which the hash function and bucket layout of the implementation determine. The entries
already present keep their relative order (a rehash that permutes them is not
modelled). -/
def UMap.insert {K V : Type} [DecidableEq K] (slot : K → List K → Nat)
    (m : UMap K V) (k : K) (v : V) : UMap K V :=
  if (UMap.find m k).isSome then m
  else
    let i := slot k (m.map Prod.fst)
    m.take i ++ (k, v) :: m.drop i

/-- Overwrites the value of the entry with key `k`, in place. -/
def UMap.replace {K V : Type} [DecidableEq K] : UMap K V → K → V → UMap K V
  | [], _, _ => []
  | e :: t, k, v => if e.1 = k then (k, v) :: t else e :: UMap.replace t k v

/-- `m[k] = v`. -/
def UMap.assign {K V : Type} [DecidableEq K] (slot : K → List K → Nat)
    (m : UMap K V) (k : K) (v : V) : UMap K V :=
  if (UMap.find m k).isSome then UMap.replace m k v
  else UMap.insert slot m k v

/-- The iteration order of the unordered maps is implementation-defined; the embedding
takes it as a parameter: for each key type, the position at which a new key lands among
the keys already present. -/
structure Layout where
  ofEa : Nat → List Nat → Nat
  ofFunction : FunctionPtr → List FunctionPtr → Nat
  ofString : String → List String → Nat

/-! ## `DbgMetadata` (Dbg.h, Dbg.cpp) -/

/-- The state of a `DbgMetadata`. `_dib` stands for the `DIBuilder`: the number of
distinct nodes it has built so far, which is the identity of the next one. -/
structure DbgMetadata where
  _dib : Nat
  _cu : Option DICompileUnit
  ea_to_line : UMap Nat Nat
  ea_to_dbg : UMap FunctionPtr Lines
  s_ea_to_dbg : UMap String Lines
  _dirs : UMap String DIFile
  _func_to_dbg : UMap FunctionPtr (Option DISubprogram)
  deriving DecidableEq, Repr

/-- The state after `DbgMetadata(module)`. -/
def DbgMetadata.init : DbgMetadata :=
  { _dib := 0, _cu := none, ea_to_line := [], ea_to_dbg := [], s_ea_to_dbg := [],
    _dirs := [], _func_to_dbg := [] }

/-- The function `std::getline(in, token, delim)` called until it fails: the text is cut
at every `delim`, and a trailing empty piece is not delivered. -/
def getlines (delim : Char) : List Char → List (List Char)
  | [] => []
  | c :: t =>
    if c = delim then [] :: getlines delim t
    else
      match getlines delim t with
      | [] => [[c]]
      | token :: rest => (c :: token) :: rest

/-- `split` (Dbg.cpp). -/
def split (str : List Char) : List (List Char) :=
  getlines ' ' str

/-- `DbgMetadata::AddDir`. -/
def DbgMetadata.AddDir (σ : Layout) (s : DbgMetadata) (filename dir_name : String) :
    DbgMetadata :=
  let node : DIFile := { filename := filename, directory := dir_name }
  let s := { s with _dirs := UMap.insert σ.ofString s._dirs filename node }
  if s._cu.isNone then { s with _cu := some { file := node, producer := "McSema" } }
  else s

/-- `DbgMetadata::AddEa`; `line` arrives as a `uint32_t`, `ea` as a `uint64_t`. -/
def DbgMetadata.AddEa (σ : Layout) (s : DbgMetadata) (_filename : String) (ea line : Nat) :
    DbgMetadata :=
  { s with ea_to_line := UMap.insert σ.ofEa s.ea_to_line (ea % 2 ^ 64) (line % 2 ^ 32) }

/-- `DbgMetadata::CreateDummyProgram`. The type array and subroutine type are uniqued
nodes and leave no trace in the state, the static `counter` is never read or written
after its initialization; `_dirs.begin()` is dereferenced. -/
def DbgMetadata.CreateDummyProgram (σ : Layout) (s : DbgMetadata) (func : FunctionPtr) :
    Except Fault (Option DISubprogram × DbgMetadata) :=
  if !func.lifted || StringRef.contains "_init".toList func.name.toList then .ok (none, s)
  else
    match s._dirs.head? with
    | none => .error Fault.derefEnd
    | some d =>
      let file := d.2
      let name := func.name
      let d_program : DISubprogram :=
        { id := s._dib, scope := file, name := name, linkageName := name, file := file,
          lineNo := 0, scopeLine := 0 }
      let s := { s with _dib := s._dib + 1 }
      let s := { s with ea_to_dbg := UMap.insert σ.ofFunction s.ea_to_dbg func [] }
      let s := { s with
        _func_to_dbg := UMap.insert σ.ofFunction s._func_to_dbg func (some d_program) }
      .ok (some d_program, s)

/-- The last three statements of `DbgMetadata::CreateEaMetadata` (lines 72-74), for the
line found in the table: `*_dirs.begin()` is dereferenced, `_func_to_dbg[ func ]`
inserts a null entry when the function has none, and `ea_to_dbg.find(func)->second`
is dereferenced. -/
def DbgMetadata.CreateEaMetadata.node (σ : Layout) (s : DbgMetadata) (func : FunctionPtr)
    (ea line : Nat) : Except Fault DbgMetadata :=
  match s._dirs.head? with
  | none => .error Fault.derefEnd
  | some _scope =>
    let s := { s with _func_to_dbg := UMap.insert σ.ofFunction s._func_to_dbg func none }
    let node := DILocation.get line 0 (UMap.find s._func_to_dbg func).join
    match UMap.find s.ea_to_dbg func with
    | none => .error Fault.derefEnd
    | some m =>
      .ok { s with ea_to_dbg := UMap.replace s.ea_to_dbg func (Lines.insert m ea node) }

/-- `DbgMetadata::CreateEaMetadata`. -/
def DbgMetadata.CreateEaMetadata (σ : Layout) (s : DbgMetadata) (func : FunctionPtr)
    (ea : Nat) : Except Fault DbgMetadata :=
  match UMap.find s.ea_to_line ea with
  | none => .ok s
  | some line =>
    if (UMap.find s._func_to_dbg func).isNone then
      match DbgMetadata.CreateDummyProgram σ s func with
      | .error e => .error e
      | .ok (_, s1) => DbgMetadata.CreateEaMetadata.node σ s1 func ea line
    else DbgMetadata.CreateEaMetadata.node σ s func ea line

/-- The last three statements of `DbgMetadata::Fetch` (lines 85-87): the function's map
is fetched again and queried. -/
def DbgMetadata.Fetch.requery (s : DbgMetadata) (func : FunctionPtr) (ea : Nat) :
    Except Fault (Option DILocation × DbgMetadata) :=
  match UMap.find s.ea_to_dbg func with
  | none => .error Fault.derefEnd
  | some ea_to_loc => .ok (Lines.find ea_to_loc ea, s)

/-- `DbgMetadata::Fetch`; `ea_to_dbg.find(func)->second` is dereferenced twice. -/
def DbgMetadata.Fetch (σ : Layout) (s : DbgMetadata) (func : FunctionPtr) (ea : Nat) :
    Except Fault (Option DILocation × DbgMetadata) :=
  if UMap.count s._func_to_dbg func = 0 then .ok (none, s)
  else
    match UMap.find s.ea_to_dbg func with
    | none => .error Fault.derefEnd
    | some ea_to_loc =>
      if Lines.count ea_to_loc ea = 0 then
        match DbgMetadata.CreateEaMetadata σ s func ea with
        | .error e => .error e
        | .ok s1 => DbgMetadata.Fetch.requery s1 func ea
      else DbgMetadata.Fetch.requery s func ea

/-- The body of the loop of `DbgMetadata::Parse` for one line of the file. -/
def DbgMetadata.Parse.line (σ : Layout) (s : DbgMetadata) (line : List Char) :
    Except Fault DbgMetadata :=
  let words := split line
  match words[0]? with
  | none => .error Fault.indexOutOfRange
  | some w0 =>
    if w0 = "Directory".toList then
      match words[1]?, words[2]? with
      | some w1, some w2 => .ok (DbgMetadata.AddDir σ s (String.mk w1) (String.mk w2))
      | _, _ => .error Fault.indexOutOfRange
    else
      match words[2]?, words[1]? with
      | some w2, some w1 =>
        .ok (DbgMetadata.AddEa σ s (String.mk w0) (strtoul w2 16) (strtoul w1 10))
      | _, _ => .error Fault.indexOutOfRange

/-- The loop of `DbgMetadata::Parse` over the lines of the file. -/
def DbgMetadata.Parse.lines (σ : Layout) : DbgMetadata → List (List Char) →
    Except Fault DbgMetadata
  | s, [] => .ok s
  | s, line :: rest =>
    match DbgMetadata.Parse.line σ s line with
    | .error e => .error e
    | .ok s1 => DbgMetadata.Parse.lines σ s1 rest

/-- `DbgMetadata::Parse`; `file` is the text of the file called `filename` (empty when
it cannot be opened). -/
def DbgMetadata.Parse (σ : Layout) (s : DbgMetadata) (filename : String) (file : String) :
    Except Fault DbgMetadata :=
  if filename.toList.isEmpty then .ok s
  else DbgMetadata.Parse.lines σ s (getlines (Char.ofNat 10) file.toList)

/-- `DbgMetadata::Petrify`. -/
def DbgMetadata.Petrify (σ : Layout) (s : DbgMetadata) : DbgMetadata :=
  s.ea_to_dbg.foldl
    (fun acc e =>
      { acc with s_ea_to_dbg := UMap.assign σ.ofString acc.s_ea_to_dbg e.1.name e.2 })
    s

/-- The inner loop of `DbgMetadata::FillMissing` over the petrified maps, for one
function: the first entry whose name ends the function's name is used. -/
def DbgMetadata.FillMissing.inner : UMap String Lines → Function → Except Fault Function
  | [], func => .ok func
  | (s, e_lines) :: rest, func =>
    if StringRef.endswith func.ptr.name.toList s.toList then Propagate.Run func e_lines
    else DbgMetadata.FillMissing.inner rest func

/-- The outer loop of `DbgMetadata::FillMissing` over the functions of the module. -/
def DbgMetadata.FillMissing.outer (snapshot : UMap String Lines) :
    List Function → Except Fault (List Function)
  | [] => .ok []
  | func :: rest =>
    match DbgMetadata.FillMissing.inner snapshot func with
    | .error e => .error e
    | .ok func1 =>
      match DbgMetadata.FillMissing.outer snapshot rest with
      | .error e => .error e
      | .ok rest1 => .ok (func1 :: rest1)

/-- `DbgMetadata::FillMissing`. -/
def DbgMetadata.FillMissing (s : DbgMetadata) (m : Module) : Except Fault Module :=
  DbgMetadata.FillMissing.outer s.s_ea_to_dbg m

/-! ## Sequences of calls -/

/-- A call of one of the state-changing operations of `DbgMetadata`. -/
inductive Op where
  | Parse (filename : String) (file : String)
  | AddDir (filename dir_name : String)
  | AddEa (filename : String) (ea line : Nat)
  | CreateDummyProgram (func : FunctionPtr)
  | CreateEaMetadata (func : FunctionPtr) (ea : Nat)
  | Fetch (func : FunctionPtr) (ea : Nat)
  | Petrify
  deriving DecidableEq, Repr

/-- The state after one call, when the call stays within defined behaviour. -/
def DbgMetadata.step (σ : Layout) (s : DbgMetadata) : Op → Except Fault DbgMetadata
  | .Parse filename file => DbgMetadata.Parse σ s filename file
  | .AddDir filename dir_name => .ok (DbgMetadata.AddDir σ s filename dir_name)
  | .AddEa filename ea line => .ok (DbgMetadata.AddEa σ s filename ea line)
  | .CreateDummyProgram func => (DbgMetadata.CreateDummyProgram σ s func).map Prod.snd
  | .CreateEaMetadata func ea => DbgMetadata.CreateEaMetadata σ s func ea
  | .Fetch func ea => (DbgMetadata.Fetch σ s func ea).map Prod.snd
  | .Petrify => .ok (DbgMetadata.Petrify σ s)

/-- The state after a sequence of calls. -/
def DbgMetadata.run (σ : Layout) : DbgMetadata → List Op → Except Fault DbgMetadata
  | s, [] => .ok s
  | s, op :: rest =>
    match DbgMetadata.step σ s op with
    | .error e => .error e
    | .ok s1 => DbgMetadata.run σ s1 rest

/-! ## The input format, in the words of the specification -/

/-- A line of the input is well-formed when it has the three space-separated tokens
that both forms (`Directory <filename> <directory-name>` and
`<filename> <decimal-line> <hex-address>`) require. -/
def Spec.wellFormed (line : List Char) : Bool :=
  decide (3 ≤ (split line).length)

/-- The address-to-line record of a line: none for a `Directory` line, otherwise the
hex address field (third token) with the decimal line field (second token, an unsigned
32-bit number). -/
def Spec.record (line : List Char) : Option (Nat × Nat) :=
  let words := split line
  if words[0]? = some "Directory".toList then none
  else some (strtoul (words[2]?.getD []) 16, strtoul (words[1]?.getD []) 10 % 2 ^ 32)

/-- The records of the lines of a file, in file order. -/
def Spec.records (file : String) : List (Nat × Nat) :=
  (getlines (Char.ofNat 10) file.toList).filterMap Spec.record

/-! ## Eligibility and the invariant of the cache -/

/-- A function is eligible for a debug scope when it is of lifted origin and its name
does not contain `_init`. -/
def Spec.eligible (func : FunctionPtr) : Bool :=
  func.lifted && !StringRef.contains "_init".toList func.name.toList

/-- What holds of the cache in every state that the operations reach from
`DbgMetadata.init`. -/
structure DbgMetadata.Inv (s : DbgMetadata) : Prop where
  /-- A registered subprogram means that a directory was registered before. -/
  dirs : ∀ f, (UMap.find s._func_to_dbg f).isSome = true → s._dirs ≠ []
  /-- A function has a location map exactly when it has a subprogram entry. -/
  both : ∀ f, (UMap.find s.ea_to_dbg f).isSome = (UMap.find s._func_to_dbg f).isSome
  /-- Subprogram entries are not null and belong to eligible functions. -/
  nonnull : ∀ f sp, UMap.find s._func_to_dbg f = some sp →
    sp.isSome = true ∧ Spec.eligible f = true
  /-- Lines of the table are 32-bit. -/
  lines32 : ∀ ea line, UMap.find s.ea_to_line ea = some line → line < 2 ^ 32
  /-- Location maps are ordered; each entry is the node of the table's line for its
  address, at column 0, scoped to the function's subprogram. -/
  locs : ∀ f m, UMap.find s.ea_to_dbg f = some m → Lines.Ordered m ∧
    ∀ ea loc, Lines.find m ea = some loc →
      ∃ line, UMap.find s.ea_to_line ea = some line ∧
        loc = DILocation.get line 0 (UMap.find s._func_to_dbg f).join

/-! ## `DbgMetadata::Ctx`: the forward-fill cursor (Dbg.h) -/

/-- `DbgMetadata::Ctx`. The operations work on the blocks of the function under
construction; the pointers are positions there: `block` is the index of the active
block among them, `current` the index of an instruction in the active block, the
length of the block standing for its `end()`; `none` is `nullptr`. -/
structure Ctx where
  func : Option FunctionPtr
  current : Option Nat
  block : Option Nat
  dil : Option DILocation
  deriving DecidableEq, Repr

/-- The loops of `Ctx::Clear`: `inst.setDebugLoc({})` for every instruction of every
block. -/
def Ctx.Clear.loop (body : List BasicBlock) : List BasicBlock :=
  body.map (fun bb =>
    { bb with insts := bb.insts.map (fun inst => { inst with debugLoc := none }) })

/-- `Ctx::Clear`, on the blocks of `func`: `*func`, `func->begin()` and its `rbegin()`
are dereferenced. -/
def Ctx.Clear (c : Ctx) (body : List BasicBlock) : Except Fault (List BasicBlock × Ctx) :=
  match c.func with
  | none => .error Fault.invalidPointer
  | some _ =>
    match Ctx.Clear.loop body with
    | [] => .error Fault.derefEnd
    | entry :: rest =>
      if entry.insts.isEmpty then .error Fault.derefEnd
      else
        .ok (entry :: rest, { c with current := some (entry.insts.length - 1), block := some 0 })

/-- `DbgMetadata::SetCtx`: `_ctx = { func }` followed by `Clear`. -/
def DbgMetadata.SetCtx (func : Function) : Except Fault (List BasicBlock × Ctx) :=
  Ctx.Clear { func := some func.ptr, current := none, block := none, dil := none } func.blocks

/-- `Ctx::SetBlock`. -/
def Ctx.SetBlock (c : Ctx) (new_b : Nat) : Ctx :=
  { c with block := some new_b, current := none }

/-- The loop of `Ctx::PropagateForward`: the iterator starts at the instruction at
position `cur`, is advanced once, and `setDebugLoc(loc)` is called for every instruction
from there to the end of the block. -/
def Ctx.PropagateForward.walk (loc : Option DILocation) : Nat → List Instruction →
    List Instruction
  | _, [] => []
  | 0, inst :: rest => inst :: rest.map (fun i => { i with debugLoc := loc })
  | cur + 1, inst :: rest => inst :: Ctx.PropagateForward.walk loc cur rest

/-- `Ctx::PropagateForward`. With `current` null the first instruction of the block is
taken (`&*block->begin()`, a fault for an empty block); a cursor at `end()` returns at
once. -/
def Ctx.PropagateForward (c : Ctx) (body : List BasicBlock) (loc : Option DILocation) :
    Except Fault (List BasicBlock × Ctx) :=
  match c.block with
  | none => .error Fault.invalidPointer
  | some b =>
    match body[b]? with
    | none => .error Fault.invalidPointer
    | some bb =>
      let current : Except Fault Nat :=
        match c.current with
        | some cur => .ok cur
        | none => if bb.insts.isEmpty then .error Fault.derefEnd else .ok 0
      match current with
      | .error e => .error e
      | .ok cur =>
        if cur < bb.insts.length then
          .ok (body.set b { bb with insts := Ctx.PropagateForward.walk loc cur bb.insts },
            { c with current := some (bb.insts.length - 1), dil := loc })
        else if cur = bb.insts.length then
          .ok (body, { c with current := some cur, dil := loc })
        else .error Fault.invalidPointer

/-- Modelled from the spec: the emission of instructions by the lifter, which is not
part of these files: the new instructions are appended to the block at index `b`. -/
def emit (body : List BasicBlock) (b : Nat) (new : List Instruction) : List BasicBlock :=
  match body[b]? with
  | none => body
  | some bb => body.set b { bb with insts := bb.insts ++ new }

/-- `DbgMetadata::Annotate`, with the cursor `_ctx` and the blocks it works on. -/
def DbgMetadata.Annotate (σ : Layout) (s : DbgMetadata) (c : Ctx) (body : List BasicBlock)
    (func : FunctionPtr) (ea : Nat) : Except Fault (DbgMetadata × Ctx × List BasicBlock) :=
  match DbgMetadata.Fetch σ s func ea with
  | .error e => .error e
  | .ok (dil_ea, s1) =>
    match Ctx.PropagateForward c body dil_ea with
    | .error e => .error e
    | .ok (body1, c1) => .ok (s1, c1, body1)

/-- The loop of `DbgMetadata::OneBlockAnnotate` over the instructions of the block. -/
def DbgMetadata.OneBlockAnnotate.loop (dil_ea : Option DILocation) :
    List Instruction → List Instruction
  | [] => []
  | inst :: rest =>
    (if inst.debugLoc.isNone then { inst with debugLoc := dil_ea } else inst)
      :: DbgMetadata.OneBlockAnnotate.loop dil_ea rest

/-- `DbgMetadata::OneBlockAnnotate`; `bb` is the index of the block among `body`. -/
def DbgMetadata.OneBlockAnnotate (σ : Layout) (s : DbgMetadata) (body : List BasicBlock)
    (func : FunctionPtr) (bb : Nat) (ea : Nat) : Except Fault (List BasicBlock × DbgMetadata) :=
  match DbgMetadata.Fetch σ s func ea with
  | .error e => .error e
  | .ok (dil_ea, s1) =>
    match body[bb]? with
    | none => .error Fault.invalidPointer
    | some b =>
      .ok (body.set bb { b with insts := DbgMetadata.OneBlockAnnotate.loop dil_ea b.insts }, s1)

/-! ## Lifting sessions: the cache with the cursor and the blocks -/

/-- The state of a lifting session: the cache, the cursor `_ctx` and the blocks of the
function under construction. -/
structure Session where
  cache : DbgMetadata
  ctx : Ctx
  body : List BasicBlock
  deriving DecidableEq, Repr

/-- The session before any call, for a function with the blocks `body`. -/
def Session.init (body : List BasicBlock) : Session :=
  { cache := DbgMetadata.init,
    ctx := { func := none, current := none, block := none, dil := none },
    body := body }

/-- A call made during a lifting session. -/
inductive Call where
  | cache (op : Op)
  | SetCtx (func : Function)
  | SetBlock (new_b : Nat)
  | emit (b : Nat) (new : List Instruction)
  | Annotate (func : FunctionPtr) (ea : Nat)
  | OneBlockAnnotate (func : FunctionPtr) (bb : Nat) (ea : Nat)
  deriving DecidableEq, Repr

/-- The session after one call, when the call stays within defined behaviour. -/
def Session.step (σ : Layout) (ss : Session) : Call → Except Fault Session
  | .cache op =>
    match DbgMetadata.step σ ss.cache op with
    | .error e => .error e
    | .ok s1 => .ok { ss with cache := s1 }
  | .SetCtx func =>
    match DbgMetadata.SetCtx func with
    | .error e => .error e
    | .ok (body1, c1) => .ok { ss with ctx := c1, body := body1 }
  | .SetBlock new_b => .ok { ss with ctx := Ctx.SetBlock ss.ctx new_b }
  | .emit b new => .ok { ss with body := emit ss.body b new }
  | .Annotate func ea =>
    match DbgMetadata.Annotate σ ss.cache ss.ctx ss.body func ea with
    | .error e => .error e
    | .ok (s1, c1, body1) => .ok { cache := s1, ctx := c1, body := body1 }
  | .OneBlockAnnotate func bb ea =>
    match DbgMetadata.OneBlockAnnotate σ ss.cache ss.body func bb ea with
    | .error e => .error e
    | .ok (body1, s1) => .ok { ss with cache := s1, body := body1 }

/-- The session after a sequence of calls. -/
def Session.run (σ : Layout) : Session → List Call → Except Fault Session
  | ss, [] => .ok ss
  | ss, call :: rest =>
    match Session.step σ ss call with
    | .error e => .error e
    | .ok ss1 => Session.run σ ss1 rest

/-- Whether a call is one of those that fill the address-to-line table and the
directories: `Parse` with `AddDir` and `AddEa`, which it calls. -/
def Call.parses : Call → Bool
  | .cache (.Parse _ _) => true
  | .cache (.AddDir _ _) => true
  | .cache (.AddEa _ _ _) => true
  | _ => false

/-- At most one subprogram entry per function: the keys of `_func_to_dbg` are pairwise
different. -/
def DbgMetadata.Distinct (s : DbgMetadata) : Prop :=
  (s._func_to_dbg.map Prod.fst).Nodup

/-! ## Sample data -/

/-- A location at `line`, column 0, without scope. -/
def Sample.loc (line : Nat) : DILocation :=
  { line := line, column := 0, scope := none }

/-- The line table `{0x10 -> L1, 0x30 -> L2}`. -/
def Sample.table : Lines :=
  [(0x10, Sample.loc 1), (0x30, Sample.loc 2)]

/-- A block with address `0x05`. -/
def Sample.block05 : BasicBlock :=
  { name := "block_5", insts := [] }

/-- A block with address `0x20`. -/
def Sample.block20 : BasicBlock :=
  { name := "block_20", insts := [] }

/-- A block with address `0x30`. -/
def Sample.block30 : BasicBlock :=
  { name := "block_30", insts := [] }

/-- A map whose entry at `0x10` is a location with line 4. -/
def Sample.table4 : Lines :=
  [(0x10, Sample.loc 4)]

/-- A block at `0x10` whose instructions carry the lines 5, 3, 8. -/
def Sample.block538 : BasicBlock :=
  { name := "block_10",
    insts := [⟨some (Sample.loc 5)⟩, ⟨some (Sample.loc 3)⟩, ⟨some (Sample.loc 8)⟩] }

/-- An iteration order for the samples: a new key comes first. -/
def Sample.layout : Layout :=
  { ofEa := fun _ _ => 0, ofFunction := fun _ _ => 0, ofString := fun _ _ => 0 }

/-- An eligible function. -/
def Sample.func : FunctionPtr :=
  { addr := 1, name := "sub_401000", lifted := true }

/-- A function excluded by its name. -/
def Sample.initFunc : FunctionPtr :=
  { addr := 2, name := "sub_init_proc", lifted := true }

/-- A cache with one directory and the record `0x1a -> 10`. -/
def Sample.parsed : DbgMetadata :=
  { DbgMetadata.init with
    ea_to_line := [(0x1a, 10)],
    _dirs := [("a.c", { filename := "a.c", directory := "." })],
    _cu := some { file := { filename := "a.c", directory := "." }, producer := "McSema" } }

/-- The subprogram with identity `id` that `CreateDummyProgram` builds for `Sample.func`
in `Sample.parsed`. -/
def Sample.subprogram (id : Nat) : DISubprogram :=
  { id := id, scope := { filename := "a.c", directory := "." }, name := "sub_401000",
    linkageName := "sub_401000", file := { filename := "a.c", directory := "." },
    lineNo := 0, scopeLine := 0 }

/-- The calls that parse the sample file and create the subprogram of `Sample.func`. -/
def Sample.calls : List Op :=
  [Op.Parse "dbg.txt" "Directory a.c .\nb 10 1a\n", Op.CreateDummyProgram Sample.func]

/-- The state after `Sample.calls`. -/
def Sample.registered : DbgMetadata :=
  { Sample.parsed with
    _dib := 1,
    ea_to_dbg := [(Sample.func, [])],
    _func_to_dbg := [(Sample.func, some (Sample.subprogram 0))] }

/-- A tracked function whose name ends with the name of `Sample.func`. -/
def Sample.funcG : FunctionPtr :=
  { addr := 3, name := "my_sub_401000", lifted := true }

/-- The calls that parse two records, create the subprograms of `Sample.func` and
`Sample.funcG`, and fetch one location for each. -/
def Sample.trackCalls : List Op :=
  [Op.Parse "dbg.txt" "Directory a.c .\nb 10 1a\nb 20 2a\n",
   Op.CreateDummyProgram Sample.func, Op.CreateDummyProgram Sample.funcG,
   Op.Fetch Sample.func 0x1a, Op.Fetch Sample.funcG 0x2a]

/-- The location map of `Sample.func` after `Sample.trackCalls`. -/
def Sample.mapH : Lines :=
  [(0x1a, { line := 10, column := 0, scope := some (Sample.subprogram 0) })]

/-- The location map of `Sample.funcG` after `Sample.trackCalls`. -/
def Sample.mapG : Lines :=
  [(0x2a, { line := 20, column := 0,
            scope := some { Sample.subprogram 1 with
              name := "my_sub_401000", linkageName := "my_sub_401000" } })]

/-- The state after `Sample.trackCalls`. -/
def Sample.tracked : DbgMetadata :=
  { _dib := 2,
    _cu := some { file := { filename := "a.c", directory := "." }, producer := "McSema" },
    ea_to_line := [(0x2a, 20), (0x1a, 10)],
    ea_to_dbg := [(Sample.funcG, Sample.mapG), (Sample.func, Sample.mapH)],
    s_ea_to_dbg := [],
    _dirs := [("a.c", { filename := "a.c", directory := "." })],
    _func_to_dbg :=
      [(Sample.funcG, some { Sample.subprogram 1 with
          name := "my_sub_401000", linkageName := "my_sub_401000" }),
       (Sample.func, some (Sample.subprogram 0))] }

/-- A function of the module with the name of `Sample.funcG` and a new identity; its
block at `0x30` has one instruction with a location at line 5 and one without. -/
def Sample.moduleFunc : Function :=
  { ptr := { addr := 7, name := "my_sub_401000", lifted := true },
    blocks := [{ name := "block_30", insts := [⟨some (Sample.loc 5)⟩, ⟨none⟩] }] }

/-- A function of the module with the name of `Sample.func` and a new identity, with
the same block. -/
def Sample.moduleFuncH : Function :=
  { Sample.moduleFunc with ptr := { addr := 8, name := "sub_401000", lifted := true } }

/-- The calls that register a directory, create the subprogram of `Sample.func` without
fetching any location, and petrify. -/
def Sample.emptyMapCalls : List Op :=
  [Op.Parse "dbg.txt" "Directory a.c .\n", Op.CreateDummyProgram Sample.func, Op.Petrify]

/-- A block at `0x10` with a located instruction, an instruction without location and
two located instructions with the lines 9 and 6. -/
def Sample.blockMixed : BasicBlock :=
  { name := "block_10",
    insts := [⟨some (Sample.loc 5)⟩, ⟨none⟩, ⟨some (Sample.loc 9)⟩, ⟨some (Sample.loc 6)⟩] }

/-- A function whose first instruction carries no location although a later one does. -/
def Sample.unannotated : Function :=
  { ptr := Sample.func,
    blocks := [{ name := "block_30", insts := [⟨none⟩, ⟨some (Sample.loc 5)⟩] },
               { name := "block_40", insts := [⟨some (Sample.loc 7)⟩] }] }

/-- The calls that register the directories `a.c` and `b.c`, in this order. -/
def Sample.twoDirs : List Op :=
  [Op.Parse "dbg.txt" "Directory a.c .\nDirectory b.c .\n"]

/-- A cursor after `SetBlock` on the block at index 0. -/
def Sample.cursor : Ctx :=
  Ctx.SetBlock { func := some Sample.func, current := none, block := none, dil := none } 0

/-- A function body with one block that holds one instruction. -/
def Sample.bodyOne : List BasicBlock :=
  [{ name := "block_10", insts := [⟨none⟩] }]

/-- A function body whose first block holds three instructions, the second of them
with a location, and whose second block holds one instruction. -/
def Sample.bodyTwo : List BasicBlock :=
  [{ name := "block_10", insts := [⟨none⟩, ⟨some (Sample.loc 7)⟩, ⟨none⟩] },
   { name := "block_20", insts := [⟨none⟩] }]

/-- The calls of a session that parses the sample file, creates the subprogram of
`Sample.func`, annotates a block in one step and then runs the cursor over it. -/
def Sample.session : List Call :=
  [Call.cache (Op.Parse "dbg.txt" "Directory a.c .\nb 10 1a\n"),
   Call.cache (Op.CreateDummyProgram Sample.func),
   Call.OneBlockAnnotate Sample.func 1 0x1a,
   Call.SetBlock 0,
   Call.Annotate Sample.func 0x1a,
   Call.cache Op.Petrify]

/-! # Theorems -/

/-! ## Lemmas on `Lines` -/

theorem Lines.find_eq_none (lines : Lines) (a : Nat) (h : ∀ x ∈ lines, x.1 ≠ a) :
    Lines.find lines a = none := by
  induction lines with
  | nil => rfl
  | cons x t ih =>
    have hx : x.1 ≠ a := h x (List.mem_cons_self _ _)
    have ht : ∀ y ∈ t, y.1 ≠ a := fun y hy => h y (List.mem_cons_of_mem _ hy)
    simp [Lines.find, hx, ih ht]

theorem Lines.find_of_mem (lines : Lines) (a : Nat) (loc : DILocation)
    (ho : Lines.Ordered lines) (hm : (a, loc) ∈ lines) : Lines.find lines a = some loc := by
  induction lines with
  | nil => simp at hm
  | cons x t ih =>
    have hp := List.pairwise_cons.mp ho
    rcases List.mem_cons.mp hm with hx | ht
    · subst hx; simp [Lines.find]
    · have hlt : x.1 < a := hp.1 (a, loc) ht
      have hne : x.1 ≠ a := Nat.ne_of_lt hlt
      simp [Lines.find, hne, ih hp.2 ht]

theorem Lines.find_some_mem (lines : Lines) (a : Nat) (loc : DILocation)
    (h : Lines.find lines a = some loc) : (a, loc) ∈ lines := by
  induction lines with
  | nil => simp [Lines.find] at h
  | cons x t ih =>
    by_cases hx : x.1 = a
    · simp [Lines.find, hx] at h
      have : x = (a, loc) := Prod.ext hx h
      simp [this]
    · simp [Lines.find, hx] at h
      exact List.mem_cons_of_mem _ (ih h)

theorem Lines.lower_bound_pred (lines : Lines) (a : Nat) (e : Nat × DILocation)
    (ho : Lines.Ordered lines) (he : e ∈ lines) (hlt : e.1 < a)
    (hmax : ∀ x ∈ lines, x.1 < a → x.1 ≤ e.1) :
    Lines.lower_bound lines a ≠ 0 ∧ lines[Lines.lower_bound lines a - 1]? = some e := by
  induction lines with
  | nil => simp at he
  | cons x t ih =>
    have hp := List.pairwise_cons.mp ho
    have hxa : ¬ a ≤ x.1 := by
      rcases List.mem_cons.mp he with hx | ht
      · subst hx; omega
      · have := hp.1 e ht; omega
    refine ⟨by simp [Lines.lower_bound, hxa], ?_⟩
    simp only [Lines.lower_bound, hxa, if_false, Nat.add_sub_cancel]
    rcases List.mem_cons.mp he with hx | ht
    · subst hx
      have h0 : Lines.lower_bound t a = 0 := by
        cases t with
        | nil => rfl
        | cons y u =>
          have hy : e.1 < y.1 := hp.1 y (List.mem_cons_self _ _)
          have hya : a ≤ y.1 := by
            by_contra hc
            have := hmax y (List.mem_cons_of_mem _ (List.mem_cons_self _ _)) (by omega)
            omega
          simp [Lines.lower_bound, hya]
      simp [h0]
    · have hmax1 : ∀ y ∈ t, y.1 < a → y.1 ≤ e.1 :=
        fun y hy => hmax y (List.mem_cons_of_mem _ hy)
      obtain ⟨hne, hget⟩ := ih hp.2 ht hmax1
      obtain ⟨k, hk⟩ := Nat.exists_eq_succ_of_ne_zero hne
      rw [hk] at hget ⊢
      simpa using hget

/-! ## `Propagate::Init` -/

/-- C1 (as stated, refuted): with the map `{0x10 -> L1, 0x30 -> L2}` the block with
address `0x05`, which is below every key, does not resolve to none: `Init` yields `L1`,
the location of the first entry. -/
theorem C1_counterexample :
    Propagate.Ea Sample.block05 = some 5 ∧
    Sample.table.all (fun e => decide (5 < e.1)) = true ∧
    Propagate.Init Sample.table Sample.block05 = .ok (some (Sample.loc 1)) ∧
    Propagate.Init Sample.table Sample.block05 ≠ .ok none := by
  decide

/-- C1 (amended): for a non-empty map and a block whose address is strictly smaller
than every key, `Init` returns the location stored at the smallest key of the map. -/
theorem C1_init_below_all_keys (lines : Lines) (bb : BasicBlock) (a : Nat)
    (ho : Lines.Ordered lines) (hne : lines ≠ []) (hea : Propagate.Ea bb = some a)
    (hlt : ∀ x ∈ lines, a < x.1) :
    ∃ e ∈ lines, (∀ x ∈ lines, e.1 ≤ x.1) ∧
      Propagate.Init lines bb = .ok (some e.2) := by
  cases lines with
  | nil => exact absurd rfl hne
  | cons e t =>
    have hp := List.pairwise_cons.mp ho
    refine ⟨e, List.mem_cons_self _ _, ?_, ?_⟩
    · intro x hx
      rcases List.mem_cons.mp hx with h | h
      · subst h; exact Nat.le_refl _
      · exact Nat.le_of_lt (hp.1 x h)
    · have hnone : Lines.find (e :: t) a = none :=
        Lines.find_eq_none _ _ (fun x hx => Nat.ne_of_gt (hlt x hx))
      have hle : a ≤ e.1 := Nat.le_of_lt (hlt e (List.mem_cons_self _ _))
      simp [Propagate.Init, Propagate.ExactLine, Propagate.BlockLine, hea, hnone,
        Lines.lower_bound, hle]

/-- Witness of `C1_init_below_all_keys`: the table `{0x10, 0x30}` and address `0x05`. -/
theorem C1_init_below_all_keys_witness :
    ∃ e ∈ Sample.table, (∀ x ∈ Sample.table, e.1 ≤ x.1) ∧
      Propagate.Init Sample.table Sample.block05 = .ok (some e.2) :=
  C1_init_below_all_keys Sample.table Sample.block05 5 (by decide) (by decide) (by decide)
    (by decide)

/-- C2: for an address that is a key of the map, `Init` returns the location stored
there; for an address that is not a key but has a smaller key, `Init` returns the
location stored at the greatest key smaller than the address. -/
theorem C2_init_exact_or_preceding (lines : Lines) (bb : BasicBlock) (a : Nat)
    (ho : Lines.Ordered lines) (hea : Propagate.Ea bb = some a) :
    (∀ loc, (a, loc) ∈ lines → Propagate.Init lines bb = .ok (some loc)) ∧
    ((∀ x ∈ lines, x.1 ≠ a) → ∀ e ∈ lines, e.1 < a →
      (∀ x ∈ lines, x.1 < a → x.1 ≤ e.1) → Propagate.Init lines bb = .ok (some e.2)) := by
  constructor
  · intro loc hm
    simp [Propagate.Init, Propagate.ExactLine, hea, Lines.find_of_mem lines a loc ho hm]
  · intro hkey e he hlt hmax
    obtain ⟨hne, hget⟩ := Lines.lower_bound_pred lines a e ho he hlt hmax
    simp [Propagate.Init, Propagate.ExactLine, Propagate.BlockLine, hea,
      Lines.find_eq_none lines a hkey, hne, hget]

/-- Witness of `C2_init_exact_or_preceding`: in `{0x10 -> L1, 0x30 -> L2}` the address
`0x30` gives `L2` and the address `0x20` gives `L1`. -/
theorem C2_init_exact_or_preceding_witness :
    Propagate.Init Sample.table Sample.block30 = .ok (some (Sample.loc 2)) ∧
    Propagate.Init Sample.table Sample.block20 = .ok (some (Sample.loc 1)) :=
  ⟨(C2_init_exact_or_preceding Sample.table Sample.block30 0x30 (by decide) (by decide)).1
      (Sample.loc 2) (by decide),
   (C2_init_exact_or_preceding Sample.table Sample.block20 0x20 (by decide) (by decide)).2
      (by decide) (0x10, Sample.loc 1) (by decide) (by decide) (by decide)⟩

/-! ## `Propagate::Work` -/

/-- C3 (as stated, refuted): with `Init` at line 4 and instructions carrying the lines
5, 3, 8, the line-3 instruction does not receive the line-4 location: it receives the
location of the line-5 instruction, which has become the running location. -/
theorem C3_counterexample :
    Propagate.Init Sample.table4 Sample.block538 = .ok (some (Sample.loc 4)) ∧
    (Propagate.Work Sample.table4 Sample.block538).map (fun b => b.insts.map (·.debugLoc))
      = .ok [some (Sample.loc 5), some (Sample.loc 5), some (Sample.loc 8)] ∧
    (Propagate.Work Sample.table4 Sample.block538).map (fun b => b.insts.map (·.debugLoc))
      ≠ .ok [some (Sample.loc 5), some (Sample.loc 4), some (Sample.loc 8)] := by
  decide

/-- C3 (amended): when `Init` has line 4 and the instructions carry locations with the
lines 5, 3, 8, after `Work` the line-3 instruction carries the location of the line-5
instruction, and the line-5 and line-8 instructions keep their own locations. -/
theorem C3_work_monotonic_overwrite (lines : Lines) (bb : BasicBlock)
    (d l5 l3 l8 : DILocation)
    (hinit : Propagate.Init lines bb = .ok (some d)) (hd : d.line = 4)
    (hinsts : bb.insts = [⟨some l5⟩, ⟨some l3⟩, ⟨some l8⟩])
    (h5 : l5.line = 5) (h3 : l3.line = 3) (h8 : l8.line = 8) :
    Propagate.Work lines bb =
      .ok { bb with insts := [⟨some l5⟩, ⟨some l5⟩, ⟨some l8⟩] } := by
  simp [Propagate.Work, hinit, hinsts, Propagate.Work.loop, hd, h5, h3, h8]

/-- Witness of `C3_work_monotonic_overwrite`: the block at `0x10` with the map
`{0x10 -> line 4}`. -/
theorem C3_work_monotonic_overwrite_witness :
    Propagate.Work Sample.table4 Sample.block538 =
      .ok { Sample.block538 with
        insts := [⟨some (Sample.loc 5)⟩, ⟨some (Sample.loc 5)⟩, ⟨some (Sample.loc 8)⟩] } :=
  C3_work_monotonic_overwrite Sample.table4 Sample.block538 (Sample.loc 4) (Sample.loc 5)
    (Sample.loc 3) (Sample.loc 8) (by decide) (by decide) (by decide) (by decide)
    (by decide) (by decide)

/-! ## Lemmas on `UMap` -/

theorem UMap.find_append {K V : Type} [DecidableEq K] (l1 l2 : UMap K V) (k : K) :
    UMap.find (l1 ++ l2) k =
      match UMap.find l1 k with
      | some x => some x
      | none => UMap.find l2 k := by
  induction l1 with
  | nil => rfl
  | cons e t ih =>
    by_cases h : e.1 = k
    · simp [UMap.find, h]
    · simp [UMap.find, h, ih]

theorem UMap.find_take_drop {K V : Type} [DecidableEq K] (m : UMap K V) (i : Nat) (k : K) :
    UMap.find m k =
      match UMap.find (m.take i) k with
      | some x => some x
      | none => UMap.find (m.drop i) k := by
  rw [← UMap.find_append, List.take_append_drop]

theorem UMap.find_insert {K V : Type} [DecidableEq K] (slot : K → List K → Nat)
    (m : UMap K V) (k : K) (v : V) (k1 : K) :
    UMap.find (UMap.insert slot m k v) k1 =
      match UMap.find m k1 with
      | some x => some x
      | none => if k = k1 then some v else none := by
  unfold UMap.insert
  by_cases hk : (UMap.find m k).isSome = true
  · simp only [hk, if_true]
    cases h1 : UMap.find m k1 with
    | some x => rfl
    | none =>
      have : k ≠ k1 := by
        intro hkk; subst hkk; simp [h1] at hk
      simp [this]
  · simp only [hk]
    have hnone : UMap.find m k = none := by
      cases h : UMap.find m k with
      | none => rfl
      | some x => simp [h] at hk
    have hsplit := UMap.find_take_drop m (slot k (m.map Prod.fst)) k1
    have hsplitk := UMap.find_take_drop m (slot k (m.map Prod.fst)) k
    simp only [Bool.false_eq_true, if_false]
    rw [UMap.find_append]
    cases ht : UMap.find (m.take (slot k (m.map Prod.fst))) k1 with
    | some x => simp [ht] at hsplit; simp [hsplit]
    | none =>
      simp only [ht] at hsplit
      by_cases hkk : k = k1
      · subst hkk
        simp [UMap.find, hnone]
      · simp only [UMap.find, hkk, if_false, hsplit]
        cases UMap.find (m.drop (slot k (m.map Prod.fst))) k1 <;> rfl

theorem UMap.find_insert_self {K V : Type} [DecidableEq K] (slot : K → List K → Nat)
    (m : UMap K V) (k : K) (v : V) (h : UMap.find m k = none) :
    UMap.find (UMap.insert slot m k v) k = some v := by
  rw [UMap.find_insert, h]; simp

theorem UMap.insert_of_find {K V : Type} [DecidableEq K] (slot : K → List K → Nat)
    (m : UMap K V) (k : K) (v x : V) (h : UMap.find m k = some x) :
    UMap.insert slot m k v = m := by
  simp [UMap.insert, h]

theorem UMap.find_replace {K V : Type} [DecidableEq K] (m : UMap K V) (k : K) (v : V)
    (k1 : K) :
    UMap.find (UMap.replace m k v) k1 =
      if k = k1 then (UMap.find m k).map (fun _ => v) else UMap.find m k1 := by
  induction m with
  | nil => simp [UMap.replace, UMap.find]
  | cons e t ih =>
    by_cases he : e.1 = k
    · by_cases hkk : k = k1
      · subst hkk; simp [UMap.replace, UMap.find, he]
      · have : e.1 ≠ k1 := by rw [he]; exact hkk
        simp [UMap.replace, UMap.find, he, hkk, this]
    · by_cases hkk : k = k1
      · subst hkk; simp [UMap.replace, UMap.find, he, ih]
      · simp only [UMap.replace, he, if_false, UMap.find, ih, hkk]

theorem UMap.find_assign {K V : Type} [DecidableEq K] (slot : K → List K → Nat)
    (m : UMap K V) (k : K) (v : V) (k1 : K) :
    UMap.find (UMap.assign slot m k v) k1 = if k = k1 then some v else UMap.find m k1 := by
  unfold UMap.assign
  cases h : UMap.find m k with
  | some x =>
    simp only [Option.isSome_some, if_true, UMap.find_replace, h, Option.map_some']
  | none =>
    simp only [Option.isSome_none, Bool.false_eq_true, if_false, UMap.find_insert]
    by_cases hkk : k = k1
    · subst hkk; simp [h]
    · simp only [hkk, if_false]
      cases UMap.find m k1 <;> rfl

/-! ## `DbgMetadata::Parse` -/

theorem strtoul_lt (str : List Char) (base : Nat) : strtoul str base < 2 ^ 64 := by
  unfold strtoul
  simp only [ULONG_MAX]
  split_ifs <;> omega

theorem UMap.find_isSome_iff {K V : Type} [DecidableEq K] (m : UMap K V) (k : K) :
    (UMap.find m k).isSome = true ↔ ∃ r ∈ m, r.1 = k := by
  induction m with
  | nil => simp [UMap.find]
  | cons e t ih =>
    by_cases h : e.1 = k
    · simp [UMap.find, h]
    · simp [UMap.find, h, ih]

theorem UMap.find_first {K V : Type} [DecidableEq K] (pre post : UMap K V) (r : K × V)
    (h : ∀ x ∈ pre, x.1 ≠ r.1) : UMap.find (pre ++ r :: post) r.1 = some r.2 := by
  induction pre with
  | nil => simp [UMap.find]
  | cons e t ih =>
    have he : e.1 ≠ r.1 := h e (List.mem_cons_self _ _)
    have ht : ∀ x ∈ t, x.1 ≠ r.1 := fun x hx => h x (List.mem_cons_of_mem _ hx)
    simp [UMap.find, he, ih ht]

theorem DbgMetadata.Parse.line_malformed (σ : Layout) (s : DbgMetadata) (line : List Char)
    (h : Spec.wellFormed line = false) :
    DbgMetadata.Parse.line σ s line = .error Fault.indexOutOfRange := by
  unfold Spec.wellFormed at h
  unfold DbgMetadata.Parse.line
  rcases hw : split line with _ | ⟨w0, _ | ⟨w1, _ | ⟨w2, rest⟩⟩⟩
  · rfl
  · by_cases hd : w0 = "Directory".toList
    · simp only [List.getElem?_cons_zero, List.getElem?_cons_succ, List.getElem?_nil, if_pos hd]
    · simp only [List.getElem?_cons_zero, List.getElem?_cons_succ, List.getElem?_nil, if_neg hd]
  · by_cases hd : w0 = "Directory".toList
    · simp only [List.getElem?_cons_zero, List.getElem?_cons_succ, List.getElem?_nil, if_pos hd]
    · simp only [List.getElem?_cons_zero, List.getElem?_cons_succ, List.getElem?_nil, if_neg hd]
  · simp [hw] at h

theorem DbgMetadata.Parse.line_wellFormed (σ : Layout) (s : DbgMetadata) (line : List Char)
    (h : Spec.wellFormed line = true) :
    ∃ s1, DbgMetadata.Parse.line σ s line = .ok s1 ∧
      ∀ a, UMap.find s1.ea_to_line a =
        match UMap.find s.ea_to_line a with
        | some x => some x
        | none => UMap.find (Spec.record line).toList a := by
  unfold Spec.wellFormed at h
  unfold DbgMetadata.Parse.line Spec.record
  rcases hw : split line with _ | ⟨w0, _ | ⟨w1, _ | ⟨w2, rest⟩⟩⟩
  · simp [hw] at h
  · simp [hw] at h
  · simp [hw] at h
  · by_cases hd : w0 = "Directory".toList
    · refine ⟨DbgMetadata.AddDir σ s (String.mk w1) (String.mk w2), ?_, ?_⟩
      · simp only [List.getElem?_cons_zero, List.getElem?_cons_succ, List.getElem?_nil, if_pos hd]
      · intro a
        have hsame : (DbgMetadata.AddDir σ s (String.mk w1) (String.mk w2)).ea_to_line
            = s.ea_to_line := by
          unfold DbgMetadata.AddDir
          simp only []
          split <;> rfl
        have hrec : (if (w0 :: w1 :: w2 :: rest)[0]? = some "Directory".toList then none
            else some (strtoul ((w0 :: w1 :: w2 :: rest)[2]?.getD []) 16,
              strtoul ((w0 :: w1 :: w2 :: rest)[1]?.getD []) 10 % 2 ^ 32))
            = (none : Option (Nat × Nat)) := by
          rw [if_pos]; rw [hd]; rfl
        simp only []
        rw [hsame, hrec]
        cases UMap.find s.ea_to_line a <;> rfl
    · refine ⟨DbgMetadata.AddEa σ s (String.mk w0) (strtoul w2 16) (strtoul w1 10), ?_, ?_⟩
      · simp only [List.getElem?_cons_zero, List.getElem?_cons_succ, List.getElem?_nil, if_neg hd]
      · intro a
        have hlt := strtoul_lt w2 16
        have hrec : (if (w0 :: w1 :: w2 :: rest)[0]? = some "Directory".toList then none
            else some (strtoul ((w0 :: w1 :: w2 :: rest)[2]?.getD []) 16,
              strtoul ((w0 :: w1 :: w2 :: rest)[1]?.getD []) 10 % 2 ^ 32))
            = some (strtoul w2 16, strtoul w1 10 % 2 ^ 32) := by
          rw [if_neg]
          · simp only [List.getElem?_cons_zero, List.getElem?_cons_succ, Option.getD_some]
          · intro hc
            exact hd (Option.some.inj hc)
        simp only []
        rw [hrec]
        simp only [DbgMetadata.AddEa, UMap.find_insert, Nat.mod_eq_of_lt hlt]
        cases UMap.find s.ea_to_line a with
        | some x => rfl
        | none =>
          by_cases hra : strtoul w2 16 = a
          · simp [UMap.find, hra]
          · simp [UMap.find, hra]

theorem DbgMetadata.Parse.lines_wellFormed (σ : Layout) (lines : List (List Char)) :
    ∀ s : DbgMetadata, (∀ line ∈ lines, Spec.wellFormed line = true) →
    ∃ s1, DbgMetadata.Parse.lines σ s lines = .ok s1 ∧
      ∀ a, UMap.find s1.ea_to_line a =
        match UMap.find s.ea_to_line a with
        | some x => some x
        | none => UMap.find (lines.filterMap Spec.record) a := by
  induction lines with
  | nil =>
    intro s _
    refine ⟨s, rfl, fun a => ?_⟩
    cases UMap.find s.ea_to_line a <;> rfl
  | cons line rest ih =>
    intro s hwf
    obtain ⟨s1, h1, hf1⟩ :=
      DbgMetadata.Parse.line_wellFormed σ s line (hwf line (List.mem_cons_self _ _))
    obtain ⟨s2, h2, hf2⟩ := ih s1 (fun l hl => hwf l (List.mem_cons_of_mem _ hl))
    refine ⟨s2, by simp [DbgMetadata.Parse.lines, h1, h2], fun a => ?_⟩
    rw [hf2, hf1]
    cases UMap.find s.ea_to_line a with
    | some x => rfl
    | none =>
      cases hr : Spec.record line with
      | none => simp [List.filterMap_cons, hr, UMap.find]
      | some r =>
        by_cases hra : r.1 = a
        · simp [List.filterMap_cons, hr, UMap.find, hra]
        · simp [List.filterMap_cons, hr, UMap.find, hra]

theorem DbgMetadata.Parse.lines_malformed (σ : Layout) (lines : List (List Char)) :
    ∀ s : DbgMetadata, (∃ line ∈ lines, Spec.wellFormed line = false) →
    DbgMetadata.Parse.lines σ s lines = .error Fault.indexOutOfRange := by
  induction lines with
  | nil => intro s h; simp at h
  | cons line rest ih =>
    intro s h
    cases hw : Spec.wellFormed line with
    | false => simp [DbgMetadata.Parse.lines, DbgMetadata.Parse.line_malformed σ s line hw]
    | true =>
      obtain ⟨s1, h1, _⟩ := DbgMetadata.Parse.line_wellFormed σ s line hw
      have hrest : ∃ l ∈ rest, Spec.wellFormed l = false := by
        obtain ⟨l, hl, hbad⟩ := h
        rcases List.mem_cons.mp hl with heq | hmem
        · subst heq; rw [hw] at hbad; cases hbad
        · exact ⟨l, hmem, hbad⟩
      simp [DbgMetadata.Parse.lines, h1, ih s1 hrest]

theorem DbgMetadata.Parse_malformed (σ : Layout) (s : DbgMetadata)
    (filename file : String) (hname : filename.toList.isEmpty = false)
    (hbad : ∃ line ∈ getlines (Char.ofNat 10) file.toList, Spec.wellFormed line = false) :
    DbgMetadata.Parse σ s filename file = .error Fault.indexOutOfRange := by
  unfold DbgMetadata.Parse
  simp only [hname, Bool.false_eq_true, if_false]
  exact DbgMetadata.Parse.lines_malformed σ _ s hbad

/-- C5 (the code departs from the claim): on every input with a malformed line (a line
with fewer than three space-separated tokens, the empty line included) `Parse` does not
fail with a format error; it indexes the token list out of range. -/
theorem C5_parse_malformed_out_of_range (σ : Layout) (s : DbgMetadata)
    (filename file : String) (hname : filename.toList.isEmpty = false)
    (hbad : ∃ line ∈ getlines (Char.ofNat 10) file.toList, Spec.wellFormed line = false) :
    DbgMetadata.Parse σ s filename file = .error Fault.indexOutOfRange :=
  DbgMetadata.Parse_malformed σ s filename file hname hbad

/-- Witness of `C5_parse_malformed_out_of_range`: a file with a record followed by an
empty line. -/
theorem C5_parse_malformed_out_of_range_witness :
    DbgMetadata.Parse Sample.layout DbgMetadata.init "dbg.txt" "b 10 1a\n\n"
      = .error Fault.indexOutOfRange :=
  C5_parse_malformed_out_of_range Sample.layout DbgMetadata.init "dbg.txt" "b 10 1a\n\n"
    (by decide) (by decide)

/-- The three kinds of malformed line of C5, each alone in a file: the empty line, a
`Directory` line with two tokens, a record line with two tokens. -/
theorem Parse_malformed_samples (σ : Layout) (s : DbgMetadata) :
    DbgMetadata.Parse σ s "dbg.txt" "\n" = .error Fault.indexOutOfRange ∧
    DbgMetadata.Parse σ s "dbg.txt" "Directory a.c\n" = .error Fault.indexOutOfRange ∧
    DbgMetadata.Parse σ s "dbg.txt" "b 10\n" = .error Fault.indexOutOfRange :=
  ⟨DbgMetadata.Parse_malformed σ s _ _ (by decide) (by decide),
   DbgMetadata.Parse_malformed σ s _ _ (by decide) (by decide),
   DbgMetadata.Parse_malformed σ s _ _ (by decide) (by decide)⟩

/-- C6: on an input all of whose lines are well-formed, `Parse` from the empty cache
succeeds, and the address-to-line table then contains an address exactly when a record
line has it as hex address field, mapped to the line field of the first such record. -/
theorem C6_parse_first_write_wins (σ : Layout) (filename file : String)
    (hname : filename.toList.isEmpty = false)
    (hwf : ∀ line ∈ getlines (Char.ofNat 10) file.toList, Spec.wellFormed line = true) :
    ∃ s, DbgMetadata.Parse σ DbgMetadata.init filename file = .ok s ∧
      (∀ a, (UMap.find s.ea_to_line a).isSome = true ↔ ∃ r ∈ Spec.records file, r.1 = a) ∧
      (∀ pre r post, Spec.records file = pre ++ r :: post → (∀ x ∈ pre, x.1 ≠ r.1) →
        UMap.find s.ea_to_line r.1 = some r.2) := by
  obtain ⟨s, hs, hf⟩ := DbgMetadata.Parse.lines_wellFormed σ _ DbgMetadata.init hwf
  have hfind : ∀ a, UMap.find s.ea_to_line a = UMap.find (Spec.records file) a := by
    intro a
    rw [hf a]
    rfl
  refine ⟨s, ?_, ?_, ?_⟩
  · unfold DbgMetadata.Parse
    simp only [hname, Bool.false_eq_true, if_false]
    exact hs
  · intro a
    rw [hfind a]
    exact UMap.find_isSome_iff _ a
  · intro pre r post hrec hpre
    rw [hfind r.1, hrec]
    exact UMap.find_first pre post r hpre

/-- Witness of `C6_parse_first_write_wins`: a file with a directory line and three
records, two of them for the address `0x1a`. -/
theorem C6_parse_first_write_wins_witness :
    ∃ s, DbgMetadata.Parse Sample.layout DbgMetadata.init "dbg.txt"
        "Directory a.c .\nb 10 1a\nb 12 1b\nb 11 1a\n" = .ok s ∧
      (∀ a, (UMap.find s.ea_to_line a).isSome = true ↔
        ∃ r ∈ Spec.records "Directory a.c .\nb 10 1a\nb 12 1b\nb 11 1a\n", r.1 = a) ∧
      (∀ pre r post,
        Spec.records "Directory a.c .\nb 10 1a\nb 12 1b\nb 11 1a\n" = pre ++ r :: post →
        (∀ x ∈ pre, x.1 ≠ r.1) → UMap.find s.ea_to_line r.1 = some r.2) :=
  C6_parse_first_write_wins Sample.layout "dbg.txt"
    "Directory a.c .\nb 10 1a\nb 12 1b\nb 11 1a\n" (by decide) (by decide)

/-- The example of the specification: parsing `"Directory a.c .\nb 10 1a\n"` yields the
single record `0x1a -> 10`, the file entry `a.c`, and one compile unit. -/
theorem Parse_example (σ : Layout) :
    DbgMetadata.Parse σ DbgMetadata.init "dbg.txt" "Directory a.c .\nb 10 1a\n" =
      .ok Sample.parsed := by
  have h1 : ∀ s, DbgMetadata.Parse.line σ s "Directory a.c .".toList
      = .ok (DbgMetadata.AddDir σ s "a.c" ".") := fun _ => rfl
  have h2 : ∀ s, DbgMetadata.Parse.line σ s "b 10 1a".toList
      = .ok (DbgMetadata.AddEa σ s "b" 0x1a 10) := fun _ => rfl
  have h3 : DbgMetadata.Parse σ DbgMetadata.init "dbg.txt" "Directory a.c .\nb 10 1a\n"
      = DbgMetadata.Parse.lines σ DbgMetadata.init
          ["Directory a.c .".toList, "b 10 1a".toList] := rfl
  rw [h3]
  simp only [DbgMetadata.Parse.lines, h1, h2]
  simp [DbgMetadata.AddDir, DbgMetadata.AddEa, DbgMetadata.init, UMap.insert, UMap.find,
    Sample.parsed]

/-! ## The invariant is kept by every operation -/

theorem UMap.insert_ne_nil {K V : Type} [DecidableEq K] (slot : K → List K → Nat)
    (m : UMap K V) (k : K) (v : V) (h : m ≠ []) : UMap.insert slot m k v ≠ [] := by
  unfold UMap.insert
  split
  · exact h
  · simp

theorem UMap.find_insert_isSome {K V : Type} [DecidableEq K] (slot : K → List K → Nat)
    (m : UMap K V) (k : K) (v : V) (k1 : K) :
    (UMap.find (UMap.insert slot m k v) k1).isSome
      = ((UMap.find m k1).isSome || decide (k = k1)) := by
  rw [UMap.find_insert]
  cases UMap.find m k1 with
  | some x => rfl
  | none => by_cases h : k = k1 <;> simp [h]

theorem UMap.find_insert_of_some {K V : Type} [DecidableEq K] (slot : K → List K → Nat)
    (m : UMap K V) (k : K) (v : V) (k1 : K) (x : V) (h : UMap.find m k1 = some x) :
    UMap.find (UMap.insert slot m k v) k1 = some x := by
  rw [UMap.find_insert, h]

theorem UMap.find_insert_of_ne {K V : Type} [DecidableEq K] (slot : K → List K → Nat)
    (m : UMap K V) (k : K) (v : V) (k1 : K) (h : k ≠ k1) :
    UMap.find (UMap.insert slot m k v) k1 = UMap.find m k1 := by
  rw [UMap.find_insert]
  cases UMap.find m k1 with
  | some x => rfl
  | none => simp [h]

theorem Lines.find_after_insert (m : Lines) (ea : Nat) (node : DILocation) (ea1 : Nat)
    (ho : Lines.Ordered m) :
    Lines.find (Lines.insert m ea node) ea1 =
      match Lines.find m ea1 with
      | some x => some x
      | none => if ea = ea1 then some node else none := by
  induction m with
  | nil => simp [Lines.insert, Lines.find]
  | cons e t ih =>
    have hp := List.pairwise_cons.mp ho
    unfold Lines.insert
    by_cases h1 : ea < e.1
    · simp only [h1, if_true]
      by_cases h2 : ea = ea1
      · subst h2
        have hne : e.1 ≠ ea := by omega
        have hnone : Lines.find t ea = none :=
          Lines.find_eq_none t ea (fun x hx => by have := hp.1 x hx; omega)
        simp [Lines.find, hne, hnone]
      · simp only [Lines.find, h2, if_false]
        split <;> rename_i hx
        · rfl
        · cases Lines.find t ea1 <;> rfl
    · by_cases h3 : ea = e.1
      · rw [if_neg h1, if_pos h3]
        by_cases h4 : e.1 = ea1
        · simp [Lines.find, h4]
        · have h5 : ea ≠ ea1 := by rw [h3]; exact h4
          simp only [Lines.find, h4, if_false, h5]
          cases Lines.find t ea1 <;> rfl
      · rw [if_neg h1, if_neg h3]
        by_cases h4 : e.1 = ea1
        · simp [Lines.find, h4]
        · simp only [Lines.find, h4, if_false]
          exact ih hp.2

theorem Lines.mem_insert (m : Lines) (ea : Nat) (node : DILocation) (x : Nat × DILocation)
    (hx : x ∈ Lines.insert m ea node) : x ∈ m ∨ x = (ea, node) := by
  induction m with
  | nil => simp [Lines.insert] at hx; exact Or.inr hx
  | cons e t ih =>
    unfold Lines.insert at hx
    by_cases h1 : ea < e.1
    · simp only [h1, if_true] at hx
      rcases List.mem_cons.mp hx with h | h
      · exact Or.inr h
      · exact Or.inl h
    · by_cases h3 : ea = e.1
      · rw [if_neg h1, if_pos h3] at hx
        exact Or.inl hx
      · rw [if_neg h1, if_neg h3] at hx
        rcases List.mem_cons.mp hx with h | h
        · exact Or.inl (by rw [h]; exact List.mem_cons_self _ _)
        · rcases ih h with h5 | h5
          · exact Or.inl (List.mem_cons_of_mem _ h5)
          · exact Or.inr h5

theorem Lines.insert_ordered (m : Lines) (ea : Nat) (node : DILocation)
    (ho : Lines.Ordered m) : Lines.Ordered (Lines.insert m ea node) := by
  induction m with
  | nil => simp [Lines.insert, Lines.Ordered]
  | cons e t ih =>
    have hp := List.pairwise_cons.mp ho
    unfold Lines.insert
    by_cases h1 : ea < e.1
    · simp only [h1, if_true]
      refine List.pairwise_cons.mpr ⟨?_, ho⟩
      intro x hx
      rcases List.mem_cons.mp hx with h | h
      · rw [h]; exact h1
      · have := hp.1 x h
        show ea < x.1
        omega
    · by_cases h3 : ea = e.1
      · rw [if_neg h1, if_pos h3]
        exact ho
      · rw [if_neg h1, if_neg h3]
        refine List.pairwise_cons.mpr ⟨?_, ih hp.2⟩
        intro x hx
        rcases Lines.mem_insert t ea node x hx with h | h
        · exact hp.1 x h
        · rw [h]
          show e.1 < ea
          omega

theorem DbgMetadata.AddDir_fields (σ : Layout) (s : DbgMetadata) (a b : String) :
    (DbgMetadata.AddDir σ s a b).ea_to_line = s.ea_to_line ∧
    (DbgMetadata.AddDir σ s a b).ea_to_dbg = s.ea_to_dbg ∧
    (DbgMetadata.AddDir σ s a b)._func_to_dbg = s._func_to_dbg ∧
    (DbgMetadata.AddDir σ s a b)._dirs
      = UMap.insert σ.ofString s._dirs a { filename := a, directory := b } := by
  unfold DbgMetadata.AddDir
  simp only []
  split <;> exact ⟨rfl, rfl, rfl, rfl⟩

theorem DbgMetadata.Inv_init : DbgMetadata.Inv DbgMetadata.init := by
  constructor
  · intro f hf; simp [DbgMetadata.init, UMap.find] at hf
  · intro f; rfl
  · intro f sp hf; simp [DbgMetadata.init, UMap.find] at hf
  · intro ea line hl; simp [DbgMetadata.init, UMap.find] at hl
  · intro f m hm; simp [DbgMetadata.init, UMap.find] at hm

theorem DbgMetadata.Inv_AddDir (σ : Layout) (s : DbgMetadata) (a b : String)
    (h : DbgMetadata.Inv s) : DbgMetadata.Inv (DbgMetadata.AddDir σ s a b) := by
  obtain ⟨e1, e2, e3, e4⟩ := DbgMetadata.AddDir_fields σ s a b
  constructor
  · intro f hf
    rw [e3] at hf; rw [e4]
    exact UMap.insert_ne_nil _ _ _ _ (h.dirs f hf)
  · intro f; rw [e2, e3]; exact h.both f
  · intro f sp hf; rw [e3] at hf; exact h.nonnull f sp hf
  · intro ea line hl; rw [e1] at hl; exact h.lines32 ea line hl
  · intro f m hm; rw [e2] at hm; rw [e1, e3]; exact h.locs f m hm

theorem DbgMetadata.Inv_AddEa (σ : Layout) (s : DbgMetadata) (fn : String) (ea line : Nat)
    (h : DbgMetadata.Inv s) : DbgMetadata.Inv (DbgMetadata.AddEa σ s fn ea line) := by
  constructor
  · exact h.dirs
  · exact h.both
  · exact h.nonnull
  · intro ea1 l1 hl
    simp only [DbgMetadata.AddEa, UMap.find_insert] at hl
    cases hold : UMap.find s.ea_to_line ea1 with
    | some x =>
      rw [hold] at hl
      have : x = l1 := Option.some.inj hl
      rw [← this]; exact h.lines32 ea1 x hold
    | none =>
      rw [hold] at hl
      by_cases hk : ea % 2 ^ 64 = ea1
      · rw [if_pos hk] at hl
        have : line % 2 ^ 32 = l1 := Option.some.inj hl
        rw [← this]; exact Nat.mod_lt _ (by norm_num)
      · rw [if_neg hk] at hl; cases hl
  · intro f m hm
    obtain ⟨ho, hl⟩ := h.locs f m hm
    refine ⟨ho, fun ea1 loc hloc => ?_⟩
    obtain ⟨l1, hf, hloc1⟩ := hl ea1 loc hloc
    exact ⟨l1, UMap.find_insert_of_some _ _ _ _ _ _ hf, hloc1⟩

theorem DbgMetadata.CreateDummyProgram_ineligible (σ : Layout) (s : DbgMetadata)
    (f : FunctionPtr) (h : Spec.eligible f = false) :
    DbgMetadata.CreateDummyProgram σ s f = .ok (none, s) := by
  unfold Spec.eligible at h
  unfold DbgMetadata.CreateDummyProgram
  rw [if_pos]
  cases hl : f.lifted <;> cases hc : StringRef.contains "_init".toList f.name.toList <;>
    simp_all

theorem DbgMetadata.CreateDummyProgram_eligible (σ : Layout) (s : DbgMetadata)
    (f : FunctionPtr) (h : Spec.eligible f = true) :
    DbgMetadata.CreateDummyProgram σ s f =
      match s._dirs.head? with
      | none => .error Fault.derefEnd
      | some d =>
        .ok (some { id := s._dib, scope := d.2, name := f.name, linkageName := f.name,
                    file := d.2, lineNo := 0, scopeLine := 0 },
          { s with
            _dib := s._dib + 1,
            ea_to_dbg := UMap.insert σ.ofFunction s.ea_to_dbg f [],
            _func_to_dbg := UMap.insert σ.ofFunction s._func_to_dbg f
              (some { id := s._dib, scope := d.2, name := f.name, linkageName := f.name,
                      file := d.2, lineNo := 0, scopeLine := 0 }) }) := by
  unfold Spec.eligible at h
  unfold DbgMetadata.CreateDummyProgram
  rw [if_neg]
  cases hl : f.lifted <;> cases hc : StringRef.contains "_init".toList f.name.toList <;>
    simp_all

theorem DbgMetadata.Inv_CreateDummyProgram (σ : Layout) (s s1 : DbgMetadata)
    (f : FunctionPtr) (r : Option DISubprogram) (h : DbgMetadata.Inv s)
    (hr : DbgMetadata.CreateDummyProgram σ s f = .ok (r, s1)) : DbgMetadata.Inv s1 := by
  cases he : Spec.eligible f with
  | false =>
    rw [DbgMetadata.CreateDummyProgram_ineligible σ s f he] at hr
    cases hr; exact h
  | true =>
    rw [DbgMetadata.CreateDummyProgram_eligible σ s f he] at hr
    cases hd : s._dirs.head? with
    | none => rw [hd] at hr; cases hr
    | some d =>
      rw [hd] at hr
      cases hr
      constructor
      · intro f1 _ hnil
        simp only [] at hnil
        rw [hnil] at hd; cases hd
      · intro f1
        simp only [UMap.find_insert_isSome, h.both f1]
      · intro f1 sp hf
        simp only [UMap.find_insert] at hf
        cases hold : UMap.find s._func_to_dbg f1 with
        | some x =>
          rw [hold] at hf
          have : x = sp := Option.some.inj hf
          rw [← this]; exact h.nonnull f1 x hold
        | none =>
          rw [hold] at hf
          by_cases hk : f = f1
          · simp only [hk, if_true] at hf
            have : some _ = sp := Option.some.inj hf
            rw [← this, ← hk]; exact ⟨rfl, he⟩
          · simp [hk] at hf
      · exact h.lines32
      · intro f1 m hm
        simp only [UMap.find_insert] at hm
        cases hold : UMap.find s.ea_to_dbg f1 with
        | some x =>
          rw [hold] at hm
          have hx : x = m := Option.some.inj hm
          obtain ⟨ho, hl⟩ := h.locs f1 x hold
          have hsome : (UMap.find s._func_to_dbg f1).isSome = true := by
            rw [← h.both f1, hold]; rfl
          obtain ⟨sp, hsp⟩ := Option.isSome_iff_exists.mp hsome
          rw [← hx]
          refine ⟨ho, fun ea loc hloc => ?_⟩
          obtain ⟨l1, hf, hloc1⟩ := hl ea loc hloc
          refine ⟨l1, hf, ?_⟩
          simp only []
          rw [UMap.find_insert_of_some _ _ _ _ _ _ hsp, hloc1, hsp]
        | none =>
          rw [hold] at hm
          by_cases hk : f = f1
          · simp only [hk, if_true] at hm
            have : ([] : Lines) = m := Option.some.inj hm
            rw [← this]
            exact ⟨List.Pairwise.nil, fun ea loc hloc => by simp [Lines.find] at hloc⟩
          · simp [hk] at hm

theorem DbgMetadata.CreateEaMetadata.node_registered (σ : Layout) (s : DbgMetadata)
    (f : FunctionPtr) (ea line : Nat) (sp : Option DISubprogram) (m : Lines)
    (hd : s._dirs ≠ []) (hsp : UMap.find s._func_to_dbg f = some sp)
    (hm : UMap.find s.ea_to_dbg f = some m) :
    DbgMetadata.CreateEaMetadata.node σ s f ea line =
      .ok { s with ea_to_dbg :=
        UMap.replace s.ea_to_dbg f (Lines.insert m ea (DILocation.get line 0 sp)) } := by
  unfold DbgMetadata.CreateEaMetadata.node
  cases hh : s._dirs.head? with
  | none => simp at hh; exact absurd hh hd
  | some d =>
    simp only [UMap.insert_of_find _ _ _ _ _ hsp, hsp, hm]
    rfl

theorem DbgMetadata.CreateEaMetadata.node_ok (σ : Layout) (s s1 : DbgMetadata)
    (f : FunctionPtr) (ea line : Nat) (h : DbgMetadata.Inv s)
    (hr : DbgMetadata.CreateEaMetadata.node σ s f ea line = .ok s1) :
    ∃ sp m, s._dirs ≠ [] ∧ UMap.find s._func_to_dbg f = some sp ∧
      UMap.find s.ea_to_dbg f = some m := by
  unfold DbgMetadata.CreateEaMetadata.node at hr
  cases hh : s._dirs.head? with
  | none => rw [hh] at hr; cases hr
  | some d =>
    rw [hh] at hr
    simp only [] at hr
    cases hm : UMap.find s.ea_to_dbg f with
    | none => rw [hm] at hr; cases hr
    | some m =>
      have hsome : (UMap.find s._func_to_dbg f).isSome = true := by
        rw [← h.both f, hm]; rfl
      obtain ⟨sp, hsp⟩ := Option.isSome_iff_exists.mp hsome
      refine ⟨sp, m, ?_, hsp, rfl⟩
      intro hnil; rw [hnil] at hh; cases hh

theorem DbgMetadata.Inv_node (σ : Layout) (s s1 : DbgMetadata) (f : FunctionPtr)
    (ea line : Nat) (h : DbgMetadata.Inv s) (hl : UMap.find s.ea_to_line ea = some line)
    (hr : DbgMetadata.CreateEaMetadata.node σ s f ea line = .ok s1) :
    DbgMetadata.Inv s1 := by
  obtain ⟨sp, m, hd, hsp, hm⟩ := DbgMetadata.CreateEaMetadata.node_ok σ s s1 f ea line h hr
  rw [DbgMetadata.CreateEaMetadata.node_registered σ s f ea line sp m hd hsp hm] at hr
  cases hr
  constructor
  · exact h.dirs
  · intro f1
    simp only [UMap.find_replace]
    by_cases hk : f = f1
    · subst hk
      simp only [if_true, hm, Option.map_some', ← h.both f]
      rfl
    · simp only [hk, if_false]; exact h.both f1
  · exact h.nonnull
  · exact h.lines32
  · intro f1 m1 hm1
    simp only [UMap.find_replace] at hm1
    by_cases hk : f = f1
    · subst hk
      simp only [if_true, hm, Option.map_some'] at hm1
      have hx : Lines.insert m ea (DILocation.get line 0 sp) = m1 := Option.some.inj hm1
      obtain ⟨ho, hlocs⟩ := h.locs f m hm
      rw [← hx]
      refine ⟨Lines.insert_ordered m ea _ ho, fun ea1 loc hloc => ?_⟩
      rw [Lines.find_after_insert m ea _ ea1 ho] at hloc
      cases hold : Lines.find m ea1 with
      | some x =>
        rw [hold] at hloc
        have : x = loc := Option.some.inj hloc
        rw [← this]; exact hlocs ea1 x hold
      | none =>
        rw [hold] at hloc
        by_cases he : ea = ea1
        · simp only [he, if_true] at hloc
          have : DILocation.get line 0 sp = loc := Option.some.inj hloc
          refine ⟨line, by rw [← he]; exact hl, ?_⟩
          simp only []
          rw [← this, hsp]; rfl
        · simp [he] at hloc
    · simp only [hk, if_false] at hm1
      exact h.locs f1 m1 hm1

theorem DbgMetadata.Inv_CreateEaMetadata (σ : Layout) (s s1 : DbgMetadata) (f : FunctionPtr)
    (ea : Nat) (h : DbgMetadata.Inv s)
    (hr : DbgMetadata.CreateEaMetadata σ s f ea = .ok s1) : DbgMetadata.Inv s1 := by
  unfold DbgMetadata.CreateEaMetadata at hr
  cases hl : UMap.find s.ea_to_line ea with
  | none => rw [hl] at hr; cases hr; exact h
  | some line =>
    rw [hl] at hr
    simp only [] at hr
    split at hr
    · cases hc : DbgMetadata.CreateDummyProgram σ s f with
      | error e => rw [hc] at hr; cases hr
      | ok p =>
        obtain ⟨r, s2⟩ := p
        rw [hc] at hr
        simp only [] at hr
        have h2 := DbgMetadata.Inv_CreateDummyProgram σ s s2 f r h hc
        have hl2 : UMap.find s2.ea_to_line ea = some line := by
          cases he : Spec.eligible f with
          | false =>
            rw [DbgMetadata.CreateDummyProgram_ineligible σ s f he] at hc
            cases hc; exact hl
          | true =>
            rw [DbgMetadata.CreateDummyProgram_eligible σ s f he] at hc
            cases hd : s._dirs.head? with
            | none => rw [hd] at hc; cases hc
            | some d => rw [hd] at hc; cases hc; exact hl
        exact DbgMetadata.Inv_node σ s2 s1 f ea line h2 hl2 hr
    · exact DbgMetadata.Inv_node σ s s1 f ea line h hl hr

theorem DbgMetadata.Inv_Fetch (σ : Layout) (s s1 : DbgMetadata) (f : FunctionPtr) (ea : Nat)
    (r : Option DILocation) (h : DbgMetadata.Inv s)
    (hr : DbgMetadata.Fetch σ s f ea = .ok (r, s1)) : DbgMetadata.Inv s1 := by
  unfold DbgMetadata.Fetch at hr
  split at hr
  · cases hr; exact h
  · cases hm : UMap.find s.ea_to_dbg f with
    | none => rw [hm] at hr; cases hr
    | some m =>
      rw [hm] at hr
      simp only [] at hr
      split at hr
      · cases hc : DbgMetadata.CreateEaMetadata σ s f ea with
        | error e => rw [hc] at hr; cases hr
        | ok s2 =>
          rw [hc] at hr
          simp only [DbgMetadata.Fetch.requery] at hr
          have h2 := DbgMetadata.Inv_CreateEaMetadata σ s s2 f ea h hc
          cases hm2 : UMap.find s2.ea_to_dbg f with
          | none => rw [hm2] at hr; cases hr
          | some m2 => rw [hm2] at hr; cases hr; exact h2
      · simp only [DbgMetadata.Fetch.requery, hm] at hr
        cases hr; exact h

theorem DbgMetadata.Parse.line_ok (σ : Layout) (s s1 : DbgMetadata) (line : List Char)
    (hr : DbgMetadata.Parse.line σ s line = .ok s1) :
    (∃ a b, s1 = DbgMetadata.AddDir σ s a b) ∨
    (∃ fn ea l, s1 = DbgMetadata.AddEa σ s fn ea l) := by
  unfold DbgMetadata.Parse.line at hr
  simp only [] at hr
  split at hr
  · cases hr
  · split at hr
    · split at hr
      · cases hr; exact Or.inl ⟨_, _, rfl⟩
      · cases hr
    · split at hr
      · cases hr; exact Or.inr ⟨_, _, _, rfl⟩
      · cases hr

theorem DbgMetadata.Inv_Parse_lines (σ : Layout) (lines : List (List Char)) :
    ∀ s s1 : DbgMetadata, DbgMetadata.Inv s →
      DbgMetadata.Parse.lines σ s lines = .ok s1 → DbgMetadata.Inv s1 := by
  induction lines with
  | nil => intro s s1 h hr; cases hr; exact h
  | cons line rest ih =>
    intro s s1 h hr
    unfold DbgMetadata.Parse.lines at hr
    cases hl : DbgMetadata.Parse.line σ s line with
    | error e => rw [hl] at hr; cases hr
    | ok s2 =>
      rw [hl] at hr
      simp only [] at hr
      have h2 : DbgMetadata.Inv s2 := by
        rcases DbgMetadata.Parse.line_ok σ s s2 line hl with ⟨a, b, e⟩ | ⟨fn, ea, l, e⟩
        · rw [e]; exact DbgMetadata.Inv_AddDir σ s a b h
        · rw [e]; exact DbgMetadata.Inv_AddEa σ s fn ea l h
      exact ih s2 s1 h2 hr

theorem DbgMetadata.Inv_Parse (σ : Layout) (s s1 : DbgMetadata) (filename file : String)
    (h : DbgMetadata.Inv s) (hr : DbgMetadata.Parse σ s filename file = .ok s1) :
    DbgMetadata.Inv s1 := by
  unfold DbgMetadata.Parse at hr
  split at hr
  · cases hr; exact h
  · exact DbgMetadata.Inv_Parse_lines σ _ s s1 h hr

theorem DbgMetadata.Petrify_fields (σ : Layout) (l : List (FunctionPtr × Lines)) :
    ∀ s : DbgMetadata,
      l.foldl (fun acc e =>
        { acc with s_ea_to_dbg := UMap.assign σ.ofString acc.s_ea_to_dbg e.1.name e.2 }) s
      = { s with s_ea_to_dbg :=
          l.foldl (fun acc e => UMap.assign σ.ofString acc e.1.name e.2) s.s_ea_to_dbg } := by
  induction l with
  | nil => intro s; rfl
  | cons e t ih => intro s; simp only [List.foldl_cons]; rw [ih]

theorem DbgMetadata.Inv_Petrify (σ : Layout) (s : DbgMetadata) (h : DbgMetadata.Inv s) :
    DbgMetadata.Inv (DbgMetadata.Petrify σ s) := by
  unfold DbgMetadata.Petrify
  rw [DbgMetadata.Petrify_fields]
  exact ⟨h.dirs, h.both, h.nonnull, h.lines32, h.locs⟩

theorem DbgMetadata.Inv_step (σ : Layout) (s s1 : DbgMetadata) (op : Op)
    (h : DbgMetadata.Inv s) (hr : DbgMetadata.step σ s op = .ok s1) : DbgMetadata.Inv s1 := by
  cases op with
  | Parse filename file => exact DbgMetadata.Inv_Parse σ s s1 filename file h hr
  | AddDir a b =>
    simp only [DbgMetadata.step] at hr
    cases hr; exact DbgMetadata.Inv_AddDir σ s a b h
  | AddEa fn ea l =>
    simp only [DbgMetadata.step] at hr
    cases hr; exact DbgMetadata.Inv_AddEa σ s fn ea l h
  | CreateDummyProgram f =>
    simp only [DbgMetadata.step] at hr
    cases hc : DbgMetadata.CreateDummyProgram σ s f with
    | error e => rw [hc] at hr; cases hr
    | ok p =>
      rw [hc] at hr
      cases hr
      exact DbgMetadata.Inv_CreateDummyProgram σ s p.2 f p.1 h hc
  | CreateEaMetadata f ea => exact DbgMetadata.Inv_CreateEaMetadata σ s s1 f ea h hr
  | Fetch f ea =>
    simp only [DbgMetadata.step] at hr
    cases hc : DbgMetadata.Fetch σ s f ea with
    | error e => rw [hc] at hr; cases hr
    | ok p =>
      rw [hc] at hr
      cases hr
      exact DbgMetadata.Inv_Fetch σ s p.2 f ea p.1 h hc
  | Petrify =>
    simp only [DbgMetadata.step] at hr
    cases hr; exact DbgMetadata.Inv_Petrify σ s h

theorem DbgMetadata.Inv_run (σ : Layout) (ops : List Op) :
    ∀ s s1 : DbgMetadata, DbgMetadata.Inv s → DbgMetadata.run σ s ops = .ok s1 →
      DbgMetadata.Inv s1 := by
  induction ops with
  | nil => intro s s1 h hr; cases hr; exact h
  | cons op rest ih =>
    intro s s1 h hr
    unfold DbgMetadata.run at hr
    cases hs : DbgMetadata.step σ s op with
    | error e => rw [hs] at hr; cases hr
    | ok s2 =>
      rw [hs] at hr
      exact ih s2 s1 (DbgMetadata.Inv_step σ s s2 op h hs) hr

/-! ## What `Fetch` returns in a state that satisfies the invariant -/

theorem DbgMetadata.Fetch_unregistered (σ : Layout) (s : DbgMetadata) (f : FunctionPtr)
    (ea : Nat) (h : UMap.find s._func_to_dbg f = none) :
    DbgMetadata.Fetch σ s f ea = .ok (none, s) := by
  simp [DbgMetadata.Fetch, UMap.count, h]

theorem DbgMetadata.Fetch_cached (σ : Layout) (s : DbgMetadata) (f : FunctionPtr)
    (ea : Nat) (sp : Option DISubprogram) (m : Lines) (loc : DILocation)
    (hsp : UMap.find s._func_to_dbg f = some sp) (hm : UMap.find s.ea_to_dbg f = some m)
    (hloc : Lines.find m ea = some loc) :
    DbgMetadata.Fetch σ s f ea = .ok (some loc, s) := by
  simp [DbgMetadata.Fetch, DbgMetadata.Fetch.requery, UMap.count, Lines.count, hsp, hm, hloc]

theorem DbgMetadata.Fetch_unknown (σ : Layout) (s : DbgMetadata) (f : FunctionPtr)
    (ea : Nat) (sp : Option DISubprogram) (m : Lines)
    (hsp : UMap.find s._func_to_dbg f = some sp) (hm : UMap.find s.ea_to_dbg f = some m)
    (hloc : Lines.find m ea = none) (hline : UMap.find s.ea_to_line ea = none) :
    DbgMetadata.Fetch σ s f ea = .ok (none, s) := by
  simp [DbgMetadata.Fetch, DbgMetadata.Fetch.requery, DbgMetadata.CreateEaMetadata, UMap.count,
    Lines.count, hsp, hm, hloc, hline]

theorem DbgMetadata.Fetch_create (σ : Layout) (s : DbgMetadata) (f : FunctionPtr)
    (ea line : Nat) (sp : Option DISubprogram) (m : Lines) (hd : s._dirs ≠ [])
    (ho : Lines.Ordered m)
    (hsp : UMap.find s._func_to_dbg f = some sp) (hm : UMap.find s.ea_to_dbg f = some m)
    (hloc : Lines.find m ea = none) (hline : UMap.find s.ea_to_line ea = some line) :
    DbgMetadata.Fetch σ s f ea =
      .ok (some (DILocation.get line 0 sp),
        { s with ea_to_dbg :=
          UMap.replace s.ea_to_dbg f (Lines.insert m ea (DILocation.get line 0 sp)) }) := by
  have hnode := DbgMetadata.CreateEaMetadata.node_registered σ s f ea line sp m hd hsp hm
  have hcem : DbgMetadata.CreateEaMetadata σ s f ea =
      .ok { s with ea_to_dbg :=
        UMap.replace s.ea_to_dbg f (Lines.insert m ea (DILocation.get line 0 sp)) } := by
    simp [DbgMetadata.CreateEaMetadata, hline, hsp, hnode]
  have hfind : Lines.find (Lines.insert m ea (DILocation.get line 0 sp)) ea
      = some (DILocation.get line 0 sp) := by
    rw [Lines.find_after_insert m ea _ ea ho, hloc]; simp
  simp [DbgMetadata.Fetch, DbgMetadata.Fetch.requery, UMap.count, Lines.count, hsp, hm, hloc,
    hcem, UMap.find_replace, hfind]

/-! ## `DbgMetadata::CreateDummyProgram` -/

theorem UMap.insert_insert {K V : Type} [DecidableEq K] (slot : K → List K → Nat)
    (m : UMap K V) (k : K) (v v1 : V) :
    UMap.insert slot (UMap.insert slot m k v) k v1 = UMap.insert slot m k v := by
  have h : (UMap.find (UMap.insert slot m k v) k).isSome = true := by
    rw [UMap.find_insert_isSome]; simp
  obtain ⟨x, hx⟩ := Option.isSome_iff_exists.mp h
  exact UMap.insert_of_find slot _ k v1 x hx

/-- C7 (as stated, refuted): in a cache with a directory, two calls of
`CreateDummyProgram` on the eligible `Sample.func` do not return the same node: the
first returns the node with identity 0, the second a new node with identity 1. -/
theorem C7_counterexample :
    Spec.eligible Sample.func = true ∧
    DbgMetadata.CreateDummyProgram Sample.layout Sample.parsed Sample.func
      = .ok (some (Sample.subprogram 0), Sample.registered) ∧
    DbgMetadata.CreateDummyProgram Sample.layout Sample.registered Sample.func
      = .ok (some (Sample.subprogram 1), { Sample.registered with _dib := 2 }) ∧
    Sample.subprogram 1 ≠ Sample.subprogram 0 := by
  decide

/-- C7 (amended): for an eligible function in a cache with a directory, the second of
two calls of `CreateDummyProgram` builds and returns a new subprogram node, different
from the first; it changes nothing of the cache but the builder: the registered
subprogram and the location maps stay as the first call left them. -/
theorem C7_create_twice (σ : Layout) (s : DbgMetadata) (f : FunctionPtr)
    (he : Spec.eligible f = true) (hd : s._dirs ≠ []) :
    ∃ d1 s1 d2 s2,
      DbgMetadata.CreateDummyProgram σ s f = .ok (some d1, s1) ∧
      DbgMetadata.CreateDummyProgram σ s1 f = .ok (some d2, s2) ∧
      d2 ≠ d1 ∧ d2.id = d1.id + 1 ∧
      s2 = { s1 with _dib := s1._dib + 1 } ∧
      s2._func_to_dbg = s1._func_to_dbg ∧ s2.ea_to_dbg = s1.ea_to_dbg ∧
      (UMap.find s._func_to_dbg f = none → UMap.find s2._func_to_dbg f = some (some d1)) := by
  cases hh : s._dirs.head? with
  | none => simp at hh; exact absurd hh hd
  | some d =>
    have h1 := DbgMetadata.CreateDummyProgram_eligible σ s f he
    rw [hh] at h1
    simp only [] at h1
    have h2 := DbgMetadata.CreateDummyProgram_eligible σ
      { s with
        _dib := s._dib + 1,
        ea_to_dbg := UMap.insert σ.ofFunction s.ea_to_dbg f [],
        _func_to_dbg := UMap.insert σ.ofFunction s._func_to_dbg f
          (some { id := s._dib, scope := d.2, name := f.name, linkageName := f.name,
                  file := d.2, lineNo := 0, scopeLine := 0 }) } f he
    simp only [hh, UMap.insert_insert] at h2
    refine ⟨_, _, _, _, h1, h2, ?_, rfl, rfl, rfl, rfl, ?_⟩
    · intro hc
      have := congrArg DISubprogram.id hc
      simp at this
    · intro hnone
      exact UMap.find_insert_self _ _ _ _ hnone

/-- Witness of `C7_create_twice`: `Sample.func` in the cache with the directory `a.c`. -/
theorem C7_create_twice_witness :
    ∃ d1 s1 d2 s2,
      DbgMetadata.CreateDummyProgram Sample.layout Sample.parsed Sample.func
        = .ok (some d1, s1) ∧
      DbgMetadata.CreateDummyProgram Sample.layout s1 Sample.func = .ok (some d2, s2) ∧
      d2 ≠ d1 ∧ d2.id = d1.id + 1 ∧
      s2 = { s1 with _dib := s1._dib + 1 } ∧
      s2._func_to_dbg = s1._func_to_dbg ∧ s2.ea_to_dbg = s1.ea_to_dbg ∧
      (UMap.find Sample.parsed._func_to_dbg Sample.func = none →
        UMap.find s2._func_to_dbg Sample.func = some (some d1)) :=
  C7_create_twice Sample.layout Sample.parsed Sample.func (by decide) (by decide)

/-! ## `DbgMetadata::Fetch` -/

/-- C8: in every state reached from the empty cache, `Fetch` returns a result, does not
change the address-to-line table, and a second `Fetch` of the same function and address
returns the same result and leaves the cache as the first call left it; for an address
that is not in the table `Fetch` returns none and leaves the cache unchanged. -/
theorem C8_fetch_stable (σ : Layout) (ops : List Op) (s : DbgMetadata) (f : FunctionPtr)
    (ea : Nat) (hs : DbgMetadata.run σ DbgMetadata.init ops = .ok s) :
    (∃ r s1, DbgMetadata.Fetch σ s f ea = .ok (r, s1) ∧ s1.ea_to_line = s.ea_to_line ∧
      DbgMetadata.Fetch σ s1 f ea = .ok (r, s1)) ∧
    (UMap.find s.ea_to_line ea = none → DbgMetadata.Fetch σ s f ea = .ok (none, s)) := by
  have h := DbgMetadata.Inv_run σ ops _ s DbgMetadata.Inv_init hs
  cases hsp : UMap.find s._func_to_dbg f with
  | none =>
    have hf := DbgMetadata.Fetch_unregistered σ s f ea hsp
    exact ⟨⟨none, s, hf, rfl, hf⟩, fun _ => hf⟩
  | some sp =>
    have hsome : (UMap.find s.ea_to_dbg f).isSome = true := by rw [h.both f, hsp]; rfl
    obtain ⟨m, hm⟩ := Option.isSome_iff_exists.mp hsome
    obtain ⟨ho, hlocs⟩ := h.locs f m hm
    cases hloc : Lines.find m ea with
    | some loc =>
      have hf := DbgMetadata.Fetch_cached σ s f ea sp m loc hsp hm hloc
      refine ⟨⟨some loc, s, hf, rfl, hf⟩, fun hnone => ?_⟩
      obtain ⟨line, hline, _⟩ := hlocs ea loc hloc
      rw [hnone] at hline; cases hline
    | none =>
      cases hline : UMap.find s.ea_to_line ea with
      | none =>
        have hf := DbgMetadata.Fetch_unknown σ s f ea sp m hsp hm hloc hline
        exact ⟨⟨none, s, hf, rfl, hf⟩, fun _ => hf⟩
      | some line =>
        have hd : s._dirs ≠ [] := h.dirs f (by rw [hsp]; rfl)
        have hf := DbgMetadata.Fetch_create σ s f ea line sp m hd ho hsp hm hloc hline
        refine ⟨⟨_, _, hf, rfl, ?_⟩, fun hnone => by cases hnone⟩
        refine DbgMetadata.Fetch_cached σ
          { s with ea_to_dbg :=
            UMap.replace s.ea_to_dbg f (Lines.insert m ea (DILocation.get line 0 sp)) }
          f ea sp (Lines.insert m ea (DILocation.get line 0 sp)) _ hsp ?_ ?_
        · simp only [UMap.find_replace, if_true, hm, Option.map_some']
        · rw [Lines.find_after_insert m ea _ ea ho, hloc]; simp

/-- Witness of `C8_fetch_stable`: the state after parsing the sample file and creating
the subprogram of `Sample.func`, at the address `0x1a`. -/
theorem C8_fetch_stable_witness :
    (∃ r s1, DbgMetadata.Fetch Sample.layout Sample.registered Sample.func 0x1a = .ok (r, s1) ∧
      s1.ea_to_line = Sample.registered.ea_to_line ∧
      DbgMetadata.Fetch Sample.layout s1 Sample.func 0x1a = .ok (r, s1)) ∧
    (UMap.find Sample.registered.ea_to_line 0x1a = none →
      DbgMetadata.Fetch Sample.layout Sample.registered Sample.func 0x1a
        = .ok (none, Sample.registered)) :=
  C8_fetch_stable Sample.layout Sample.calls Sample.registered Sample.func 0x1a (by decide)

/-- C9: in every state reached from the empty cache, for a function with a subprogram
and an address of the table, `Fetch` returns a location with the table's line, column 0
and the function's subprogram as scope; afterwards the subprogram is the same, the
function's map holds that location at the address, and its other entries are as
before. -/
theorem C9_fetch_known_address (σ : Layout) (ops : List Op) (s : DbgMetadata)
    (f : FunctionPtr) (ea line : Nat)
    (hs : DbgMetadata.run σ DbgMetadata.init ops = .ok s)
    (hreg : (UMap.find s._func_to_dbg f).isSome = true)
    (hline : UMap.find s.ea_to_line ea = some line) :
    ∃ d m loc s1 m1,
      UMap.find s._func_to_dbg f = some (some d) ∧ UMap.find s.ea_to_dbg f = some m ∧
      DbgMetadata.Fetch σ s f ea = .ok (some loc, s1) ∧
      loc.line = line ∧ loc.column = 0 ∧ loc.scope = some d ∧
      UMap.find s1._func_to_dbg f = some (some d) ∧
      UMap.find s1.ea_to_dbg f = some m1 ∧ Lines.find m1 ea = some loc ∧
      ∀ ea1, ea1 ≠ ea → Lines.find m1 ea1 = Lines.find m ea1 := by
  have h := DbgMetadata.Inv_run σ ops _ s DbgMetadata.Inv_init hs
  obtain ⟨sp, hsp⟩ := Option.isSome_iff_exists.mp hreg
  obtain ⟨d, hd⟩ := Option.isSome_iff_exists.mp (h.nonnull f sp hsp).1
  subst hd
  have hsome : (UMap.find s.ea_to_dbg f).isSome = true := by rw [h.both f, hsp]; rfl
  obtain ⟨m, hm⟩ := Option.isSome_iff_exists.mp hsome
  obtain ⟨ho, hlocs⟩ := h.locs f m hm
  have h32 : line % 2 ^ 32 = line := Nat.mod_eq_of_lt (h.lines32 ea line hline)
  cases hloc : Lines.find m ea with
  | some loc =>
    have hf := DbgMetadata.Fetch_cached σ s f ea (some d) m loc hsp hm hloc
    obtain ⟨line1, hline1, hl⟩ := hlocs ea loc hloc
    rw [hline] at hline1
    have hl1 : line1 = line := (Option.some.inj hline1).symm
    rw [hsp, hl1] at hl
    refine ⟨d, m, loc, s, m, hsp, hm, hf, ?_, ?_, ?_, hsp, hm, hloc, fun _ _ => rfl⟩
    · rw [hl]; exact h32
    · rw [hl]; rfl
    · rw [hl]; rfl
  | none =>
    have hdirs : s._dirs ≠ [] := h.dirs f hreg
    have hf := DbgMetadata.Fetch_create σ s f ea line (some d) m hdirs ho hsp hm hloc hline
    refine ⟨d, m, _, _, Lines.insert m ea (DILocation.get line 0 (some d)), hsp, hm, hf,
      h32, rfl, rfl, hsp, ?_, ?_, ?_⟩
    · simp only [UMap.find_replace, if_true, hm, Option.map_some']
    · rw [Lines.find_after_insert m ea _ ea ho, hloc]; simp
    · intro ea1 hne
      rw [Lines.find_after_insert m ea _ ea1 ho]
      cases Lines.find m ea1 with
      | some x => rfl
      | none => simp [Ne.symm hne]

/-- Witness of `C9_fetch_known_address`: `Sample.func` and the address `0x1a` after the
sample calls. -/
theorem C9_fetch_known_address_witness :
    ∃ d m loc s1 m1,
      UMap.find Sample.registered._func_to_dbg Sample.func = some (some d) ∧
      UMap.find Sample.registered.ea_to_dbg Sample.func = some m ∧
      DbgMetadata.Fetch Sample.layout Sample.registered Sample.func 0x1a
        = .ok (some loc, s1) ∧
      loc.line = 10 ∧ loc.column = 0 ∧ loc.scope = some d ∧
      UMap.find s1._func_to_dbg Sample.func = some (some d) ∧
      UMap.find s1.ea_to_dbg Sample.func = some m1 ∧ Lines.find m1 0x1a = some loc ∧
      ∀ ea1, ea1 ≠ 0x1a → Lines.find m1 ea1 = Lines.find m ea1 :=
  C9_fetch_known_address Sample.layout Sample.calls Sample.registered Sample.func 0x1a 10
    (by decide) (by decide) (by decide)

/-! ## Functions without a debug scope -/

/-- C10: for a function that is not of lifted origin or whose name contains `_init`,
`CreateDummyProgram` returns none and leaves the cache unchanged in every state, and in
every state reached from the empty cache the function has neither a subprogram nor a
location map and `Fetch` returns none for every address, leaving the cache unchanged. -/
theorem C10_exclusion_skip (σ : Layout) (f : FunctionPtr)
    (hex : f.lifted = false ∨ StringRef.contains "_init".toList f.name.toList = true) :
    (∀ s, DbgMetadata.CreateDummyProgram σ s f = .ok (none, s)) ∧
    (∀ ops s, DbgMetadata.run σ DbgMetadata.init ops = .ok s →
      UMap.find s._func_to_dbg f = none ∧ UMap.find s.ea_to_dbg f = none ∧
      ∀ ea, DbgMetadata.Fetch σ s f ea = .ok (none, s)) := by
  have he : Spec.eligible f = false := by
    unfold Spec.eligible
    rcases hex with h | h <;> rw [h] <;> simp
  refine ⟨fun s => DbgMetadata.CreateDummyProgram_ineligible σ s f he, ?_⟩
  intro ops s hs
  have h := DbgMetadata.Inv_run σ ops _ s DbgMetadata.Inv_init hs
  have hnone : UMap.find s._func_to_dbg f = none := by
    cases hsp : UMap.find s._func_to_dbg f with
    | none => rfl
    | some sp =>
      have := (h.nonnull f sp hsp).2
      rw [he] at this; cases this
  have hnone2 : UMap.find s.ea_to_dbg f = none := by
    have := h.both f
    rw [hnone] at this
    cases hm : UMap.find s.ea_to_dbg f with
    | none => rfl
    | some m => rw [hm] at this; cases this
  exact ⟨hnone, hnone2, fun ea => DbgMetadata.Fetch_unregistered σ s f ea hnone⟩

/-- Witness of `C10_exclusion_skip`: the function `sub_init_proc`. -/
theorem C10_exclusion_skip_witness :
    (∀ s, DbgMetadata.CreateDummyProgram Sample.layout s Sample.initFunc = .ok (none, s)) ∧
    (∀ ops s, DbgMetadata.run Sample.layout DbgMetadata.init ops = .ok s →
      UMap.find s._func_to_dbg Sample.initFunc = none ∧
      UMap.find s.ea_to_dbg Sample.initFunc = none ∧
      ∀ ea, DbgMetadata.Fetch Sample.layout s Sample.initFunc ea = .ok (none, s)) :=
  C10_exclusion_skip Sample.layout Sample.initFunc (Or.inr (by decide))

/-! ## `DbgMetadata::Petrify` and `DbgMetadata::FillMissing` -/

theorem DbgMetadata.Petrify_find_other (σ : Layout) (l : List (FunctionPtr × Lines))
    (k : String) (hl : ∀ e ∈ l, e.1.name ≠ k) :
    ∀ acc : UMap String Lines,
      UMap.find (l.foldl (fun acc e => UMap.assign σ.ofString acc e.1.name e.2) acc) k
        = UMap.find acc k := by
  induction l with
  | nil => intro acc; rfl
  | cons e t ih =>
    intro acc
    simp only [List.foldl_cons]
    rw [ih (fun x hx => hl x (List.mem_cons_of_mem _ hx)), UMap.find_assign,
      if_neg (hl e (List.mem_cons_self _ _))]

theorem DbgMetadata.Petrify_find_name (σ : Layout) (l : List (FunctionPtr × Lines))
    (k : String) (v : Lines) (hv : ∀ e ∈ l, e.1.name = k → e.2 = v) :
    ∀ acc : UMap String Lines, (∃ e ∈ l, e.1.name = k) →
      UMap.find (l.foldl (fun acc e => UMap.assign σ.ofString acc e.1.name e.2) acc) k
        = some v := by
  induction l with
  | nil => intro acc h; obtain ⟨e, he, _⟩ := h; simp at he
  | cons e t ih =>
    intro acc h
    simp only [List.foldl_cons]
    have hvt : ∀ x ∈ t, x.1.name = k → x.2 = v :=
      fun x hx => hv x (List.mem_cons_of_mem _ hx)
    by_cases ht : ∃ x ∈ t, x.1.name = k
    · exact ih hvt _ ht
    · have hnot : ∀ x ∈ t, x.1.name ≠ k := fun x hx hk => ht ⟨x, hx, hk⟩
      have hek : e.1.name = k := by
        obtain ⟨x, hx, hk⟩ := h
        rcases List.mem_cons.mp hx with hxe | hxt
        · rw [← hxe]; exact hk
        · exact absurd hk (hnot x hxt)
      rw [DbgMetadata.Petrify_find_other σ t k hnot, UMap.find_assign, if_pos hek,
        hv e (List.mem_cons_self _ _) hek]

theorem DbgMetadata.FillMissing.inner_first (func : Function) (k : String) (v : Lines)
    (hk : StringRef.endswith func.ptr.name.toList k.toList = true) :
    ∀ snapshot : UMap String Lines,
      (∀ e ∈ snapshot, StringRef.endswith func.ptr.name.toList e.1.toList = true → e.1 = k) →
      UMap.find snapshot k = some v →
      DbgMetadata.FillMissing.inner snapshot func = Propagate.Run func v := by
  intro snapshot
  induction snapshot with
  | nil => intro _ hf; simp [UMap.find] at hf
  | cons e t ih =>
    intro hs hf
    obtain ⟨s0, l0⟩ := e
    unfold DbgMetadata.FillMissing.inner
    by_cases he : StringRef.endswith func.ptr.name.toList s0.toList = true
    · have hs0 : s0 = k := hs (s0, l0) (List.mem_cons_self _ _) he
      have hl0 : l0 = v := by
        simp only [UMap.find, hs0, if_true] at hf
        exact Option.some.inj hf
      rw [if_pos he, hl0]
    · have hne : s0 ≠ k := by
        intro hc; rw [hc] at he; exact he hk
      rw [if_neg he]
      apply ih (fun x hx => hs x (List.mem_cons_of_mem _ hx))
      simpa only [UMap.find, hne, if_false] using hf

theorem DbgMetadata.FillMissing.outer_append (snapshot : UMap String Lines)
    (pre post : List Function) :
    DbgMetadata.FillMissing.outer snapshot (pre ++ post) =
      match DbgMetadata.FillMissing.outer snapshot pre with
      | .error e => .error e
      | .ok pre1 =>
        match DbgMetadata.FillMissing.outer snapshot post with
        | .error e => .error e
        | .ok post1 => .ok (pre1 ++ post1) := by
  induction pre with
  | nil =>
    simp only [List.nil_append, DbgMetadata.FillMissing.outer]
    cases DbgMetadata.FillMissing.outer snapshot post <;> rfl
  | cons f t ih =>
    have e1 : DbgMetadata.FillMissing.outer snapshot (f :: (t ++ post)) =
        match DbgMetadata.FillMissing.inner snapshot f with
        | .error e => .error e
        | .ok f1 =>
          match DbgMetadata.FillMissing.outer snapshot (t ++ post) with
          | .error e => .error e
          | .ok rest1 => .ok (f1 :: rest1) := rfl
    have e2 : DbgMetadata.FillMissing.outer snapshot (f :: t) =
        match DbgMetadata.FillMissing.inner snapshot f with
        | .error e => .error e
        | .ok f1 =>
          match DbgMetadata.FillMissing.outer snapshot t with
          | .error e => .error e
          | .ok rest1 => .ok (f1 :: rest1) := rfl
    rw [List.cons_append, e1, e2, ih]
    cases DbgMetadata.FillMissing.inner snapshot f with
    | error e => rfl
    | ok f1 =>
      cases DbgMetadata.FillMissing.outer snapshot t with
      | error e => rfl
      | ok t1 =>
        cases DbgMetadata.FillMissing.outer snapshot post <;> rfl

theorem DbgMetadata.FillMissing.outer_length (snapshot : UMap String Lines) :
    ∀ (m m1 : List Function), DbgMetadata.FillMissing.outer snapshot m = .ok m1 →
      m1.length = m.length := by
  intro m
  induction m with
  | nil => intro m1 h; cases h; rfl
  | cons f t ih =>
    intro m1 h
    unfold DbgMetadata.FillMissing.outer at h
    cases hf : DbgMetadata.FillMissing.inner snapshot f with
    | error e => rw [hf] at h; cases h
    | ok f1 =>
      rw [hf] at h
      cases ht : DbgMetadata.FillMissing.outer snapshot t with
      | error e => rw [ht] at h; cases h
      | ok t1 =>
        rw [ht] at h
        cases h
        simp [ih t1 ht]

/-- C4 (as stated, refuted): `Sample.func` (`sub_401000`) and `Sample.funcG`
(`my_sub_401000`) are tracked in a state reached from the empty cache; after `Petrify`
the petrified table is iterated with `sub_401000` first, and `FillMissing` gives the
module function named `my_sub_401000` the locations of `Run` with the map of
`sub_401000` (line 10), not those of `Run` with the map of `my_sub_401000` (line 20). -/
theorem C4_counterexample :
    DbgMetadata.run Sample.layout DbgMetadata.init Sample.trackCalls = .ok Sample.tracked ∧
    UMap.find Sample.tracked.ea_to_dbg Sample.funcG = some Sample.mapG ∧
    Sample.moduleFunc.ptr.name = Sample.funcG.name ∧
    DbgMetadata.FillMissing (DbgMetadata.Petrify Sample.layout Sample.tracked)
        [Sample.moduleFunc]
      = (Propagate.Run Sample.moduleFunc Sample.mapH).map (fun f => [f]) ∧
    DbgMetadata.FillMissing (DbgMetadata.Petrify Sample.layout Sample.tracked)
        [Sample.moduleFunc]
      ≠ (Propagate.Run Sample.moduleFunc Sample.mapG).map (fun f => [f]) := by
  decide

/-- C4 (amended): after `Petrify`, for a function `F` of the module whose name equals
the name of a tracked function `G`, when every tracked function of that name has the
map of `G` and the name of `G` is the only key of the petrified table that ends the
name of `F`, `FillMissing` treats `F` exactly as `Propagate::Run` with the original map
of `G` does: the inner loop is that run, and in the module that `FillMissing` returns
the function at the position of `F` is the result of that run. -/
theorem C4_petrify_fill_round_trip (σ : Layout) (s : DbgMetadata) (pre post : List Function)
    (F : Function) (G : FunctionPtr) (mG : Lines)
    (hG : (G, mG) ∈ s.ea_to_dbg)
    (huniq : ∀ e ∈ s.ea_to_dbg, e.1.name = G.name → e.2 = mG)
    (hname : F.ptr.name = G.name)
    (hsuffix : ∀ e ∈ (DbgMetadata.Petrify σ s).s_ea_to_dbg,
      StringRef.endswith F.ptr.name.toList e.1.toList = true → e.1 = G.name) :
    DbgMetadata.FillMissing.inner (DbgMetadata.Petrify σ s).s_ea_to_dbg F
      = Propagate.Run F mG ∧
    ∀ m1, DbgMetadata.FillMissing (DbgMetadata.Petrify σ s) (pre ++ F :: post) = .ok m1 →
      ∃ F1, Propagate.Run F mG = .ok F1 ∧ m1[pre.length]? = some F1 := by
  have hfind : UMap.find (DbgMetadata.Petrify σ s).s_ea_to_dbg G.name = some mG := by
    unfold DbgMetadata.Petrify
    rw [DbgMetadata.Petrify_fields]
    exact DbgMetadata.Petrify_find_name σ s.ea_to_dbg G.name mG huniq _ ⟨(G, mG), hG, rfl⟩
  have hends : StringRef.endswith F.ptr.name.toList G.name.toList = true := by
    unfold StringRef.endswith
    rw [hname, List.isSuffixOf_iff_suffix]
  have hinner := DbgMetadata.FillMissing.inner_first F G.name mG hends _ hsuffix hfind
  refine ⟨hinner, ?_⟩
  intro m1 hm1
  unfold DbgMetadata.FillMissing at hm1
  rw [DbgMetadata.FillMissing.outer_append] at hm1
  cases hpre : DbgMetadata.FillMissing.outer (DbgMetadata.Petrify σ s).s_ea_to_dbg pre with
  | error e => rw [hpre] at hm1; cases hm1
  | ok pre1 =>
    rw [hpre] at hm1
    simp only [DbgMetadata.FillMissing.outer, hinner] at hm1
    cases hrun : Propagate.Run F mG with
    | error e => rw [hrun] at hm1; cases hm1
    | ok F1 =>
      rw [hrun] at hm1
      cases hpost : DbgMetadata.FillMissing.outer (DbgMetadata.Petrify σ s).s_ea_to_dbg post with
      | error e => rw [hpost] at hm1; cases hm1
      | ok post1 =>
        rw [hpost] at hm1
        cases hm1
        refine ⟨F1, rfl, ?_⟩
        rw [← DbgMetadata.FillMissing.outer_length _ pre pre1 hpre,
          List.getElem?_append_right (Nat.le_refl _)]
        simp

/-- Witness of `C4_petrify_fill_round_trip`: the module function named `sub_401000`,
whose name no other petrified name ends, after the sample calls. -/
theorem C4_petrify_fill_round_trip_witness :
    DbgMetadata.FillMissing.inner (DbgMetadata.Petrify Sample.layout Sample.tracked).s_ea_to_dbg
        Sample.moduleFuncH
      = Propagate.Run Sample.moduleFuncH Sample.mapH ∧
    ∀ m1, DbgMetadata.FillMissing (DbgMetadata.Petrify Sample.layout Sample.tracked)
        ([Sample.moduleFunc] ++ Sample.moduleFuncH :: []) = .ok m1 →
      ∃ F1, Propagate.Run Sample.moduleFuncH Sample.mapH = .ok F1 ∧
        m1[[Sample.moduleFunc].length]? = some F1 :=
  C4_petrify_fill_round_trip Sample.layout Sample.tracked [Sample.moduleFunc] []
    Sample.moduleFuncH Sample.func Sample.mapH (by decide) (by decide) (by decide) (by decide)

/-! ## `Propagate::Run` on functions without a first location -/

theorem DbgMetadata.FillMissing.inner_of_run_id (func : Function)
    (h : ∀ lines, Propagate.Run func lines = .ok func) :
    ∀ snapshot : UMap String Lines, DbgMetadata.FillMissing.inner snapshot func = .ok func := by
  intro snapshot
  induction snapshot with
  | nil => rfl
  | cons e t ih =>
    obtain ⟨s0, l0⟩ := e
    unfold DbgMetadata.FillMissing.inner
    split
    · exact h l0
    · exact ih

/-- C13: for a function whose very first instruction carries no location, and every
location map, `Propagate::Run` returns the function with every instruction as it was,
and so does `FillMissing` for that function, whatever the petrified table holds. -/
theorem C13_run_skips_unannotated (func : Function) (entry : BasicBlock)
    (rest : List BasicBlock) (first : Instruction) (more : List Instruction)
    (hb : func.blocks = entry :: rest) (hi : entry.insts = first :: more)
    (hloc : first.debugLoc = none) :
    (∀ lines, Propagate.Run func lines = .ok func) ∧
    (∀ snapshot, DbgMetadata.FillMissing.inner snapshot func = .ok func) ∧
    (∀ s, DbgMetadata.FillMissing s [func] = .ok [func]) := by
  have hrun : ∀ lines, Propagate.Run func lines = .ok func := by
    intro lines
    unfold Propagate.Run
    rw [hb]
    simp only [hi, hloc, Option.isNone_none, if_true]
  have hinner := DbgMetadata.FillMissing.inner_of_run_id func hrun
  refine ⟨hrun, hinner, fun s => ?_⟩
  simp only [DbgMetadata.FillMissing, DbgMetadata.FillMissing.outer, hinner]

/-- Witness of `C13_run_skips_unannotated`: a function whose first instruction has no
location while later instructions have one. -/
theorem C13_run_skips_unannotated_witness :
    (∀ lines, Propagate.Run Sample.unannotated lines = .ok Sample.unannotated) ∧
    (∀ snapshot, DbgMetadata.FillMissing.inner snapshot Sample.unannotated
      = .ok Sample.unannotated) ∧
    (∀ s, DbgMetadata.FillMissing s [Sample.unannotated] = .ok [Sample.unannotated]) :=
  C13_run_skips_unannotated Sample.unannotated
    { name := "block_30", insts := [⟨none⟩, ⟨some (Sample.loc 5)⟩] }
    [{ name := "block_40", insts := [⟨some (Sample.loc 7)⟩] }]
    ⟨none⟩ [⟨some (Sample.loc 5)⟩] rfl rfl rfl

/-! ## `Propagate::BlockLine` on the empty map -/

/-- C16 (the code departs from the claim): with the empty map, for every block that has
an address, `BlockLine` dereferences `end()`: `Init` and `Work` do not return none,
they leave defined behaviour. -/
theorem C16_init_empty_map_faults (bb : BasicBlock) (a : Nat)
    (hea : Propagate.Ea bb = some a) :
    Propagate.BlockLine [] bb = .error Fault.derefEnd ∧
    Propagate.Init [] bb = .error Fault.derefEnd ∧
    Propagate.Work [] bb = .error Fault.derefEnd := by
  have hb : Propagate.BlockLine [] bb = .error Fault.derefEnd := by
    simp [Propagate.BlockLine, hea, Lines.lower_bound]
  have hi : Propagate.Init [] bb = .error Fault.derefEnd := by
    simp [Propagate.Init, Propagate.ExactLine, hea, Lines.find, hb]
  exact ⟨hb, hi, by simp [Propagate.Work, hi]⟩

/-- Witness of `C16_init_empty_map_faults`: the block with address `0x30`. -/
theorem C16_init_empty_map_faults_witness :
    Propagate.BlockLine [] Sample.block30 = .error Fault.derefEnd ∧
    Propagate.Init [] Sample.block30 = .error Fault.derefEnd ∧
    Propagate.Work [] Sample.block30 = .error Fault.derefEnd :=
  C16_init_empty_map_faults Sample.block30 0x30 (by decide)

/-- The empty map reaches `Propagate` through the cache: after a directory is
registered, the subprogram of `sub_401000` created and the cache petrified, without
any `Fetch`, `FillMissing` on a module whose function `sub_401000` has a located first
instruction and a block with an address ends in the `end()` dereference. -/
theorem FillMissing_empty_map_sample :
    (DbgMetadata.run Sample.layout DbgMetadata.init Sample.emptyMapCalls).map
        (fun s => s.s_ea_to_dbg) = .ok [("sub_401000", [])] ∧
    (DbgMetadata.run Sample.layout DbgMetadata.init Sample.emptyMapCalls).bind
        (fun s => DbgMetadata.FillMissing s [Sample.moduleFuncH])
      = .error Fault.derefEnd := by
  decide

/-! ## `DbgMetadata::CreateEaMetadata` on functions without a debug scope -/

theorem Spec.eligible_false (f : FunctionPtr)
    (hex : f.lifted = false ∨ StringRef.contains "_init".toList f.name.toList = true) :
    Spec.eligible f = false := by
  unfold Spec.eligible
  rcases hex with h | h <;> rw [h] <;> simp

theorem DbgMetadata.Inv_ineligible (s : DbgMetadata) (f : FunctionPtr)
    (h : DbgMetadata.Inv s) (he : Spec.eligible f = false) :
    UMap.find s._func_to_dbg f = none ∧ UMap.find s.ea_to_dbg f = none := by
  have hnone : UMap.find s._func_to_dbg f = none := by
    cases hsp : UMap.find s._func_to_dbg f with
    | none => rfl
    | some sp =>
      have := (h.nonnull f sp hsp).2
      rw [he] at this; cases this
  refine ⟨hnone, ?_⟩
  have := h.both f
  rw [hnone] at this
  cases hm : UMap.find s.ea_to_dbg f with
  | none => rfl
  | some m => rw [hm] at this; cases this

/-- C17 (the code departs from the claim): in every state reached from the empty cache,
for a function that is not of lifted origin or whose name contains `_init` and an
address of the table, `CreateEaMetadata` is not a no-op: it ignores the null result of
`CreateDummyProgram` and dereferences `end()` (of `_dirs`, or of `ea_to_dbg` after a
null subprogram entry was inserted). -/
theorem C17_create_location_ineligible_faults (σ : Layout) (ops : List Op) (s : DbgMetadata)
    (f : FunctionPtr) (ea line : Nat)
    (hs : DbgMetadata.run σ DbgMetadata.init ops = .ok s)
    (hex : f.lifted = false ∨ StringRef.contains "_init".toList f.name.toList = true)
    (hline : UMap.find s.ea_to_line ea = some line) :
    DbgMetadata.CreateEaMetadata σ s f ea = .error Fault.derefEnd := by
  have h := DbgMetadata.Inv_run σ ops _ s DbgMetadata.Inv_init hs
  have he := Spec.eligible_false f hex
  obtain ⟨hnone, hnone2⟩ := DbgMetadata.Inv_ineligible s f h he
  unfold DbgMetadata.CreateEaMetadata
  rw [hline]
  simp only [hnone, Option.isNone_none, if_true,
    DbgMetadata.CreateDummyProgram_ineligible σ s f he]
  unfold DbgMetadata.CreateEaMetadata.node
  cases s._dirs.head? with
  | none => rfl
  | some d => simp only [hnone2]

/-- Witness of `C17_create_location_ineligible_faults`: `sub_init_proc` and the address
`0x1a` after the sample file was parsed. -/
theorem C17_create_location_ineligible_faults_witness :
    DbgMetadata.CreateEaMetadata Sample.layout Sample.parsed Sample.initFunc 0x1a
      = .error Fault.derefEnd :=
  C17_create_location_ineligible_faults Sample.layout
    [Op.Parse "dbg.txt" "Directory a.c .\nb 10 1a\n"] Sample.parsed Sample.initFunc 0x1a 10
    (by decide) (Or.inr (by decide)) (by decide)

/-! ## `Propagate::Work`: monotone lines and idempotence -/

theorem Propagate.Work.loop_some (insts : List Instruction) :
    ∀ d : DILocation, ∃ locs : List DILocation,
      (Propagate.Work.loop (some d) insts).map (fun i => i.debugLoc) = locs.map some ∧
      List.Pairwise (fun a b => a.line ≤ b.line) locs ∧
      ∀ l ∈ locs, d.line ≤ l.line := by
  induction insts with
  | nil => intro d; exact ⟨[], rfl, List.Pairwise.nil, fun l hl => by simp at hl⟩
  | cons inst rest ih =>
    intro d
    have keep : ∃ locs : List DILocation,
        (({ inst with debugLoc := some d } : Instruction)
          :: Propagate.Work.loop (some d) rest).map (fun i => i.debugLoc) = locs.map some ∧
        List.Pairwise (fun a b => a.line ≤ b.line) locs ∧ ∀ l ∈ locs, d.line ≤ l.line := by
      obtain ⟨locs, hmap, hpw, hge⟩ := ih d
      refine ⟨d :: locs, by simp [hmap], List.pairwise_cons.mpr ⟨hge, hpw⟩, ?_⟩
      intro l hl
      rcases List.mem_cons.mp hl with h | h
      · rw [h]
      · exact hge l h
    cases hloc : inst.debugLoc with
    | none =>
      simp only [Propagate.Work.loop, hloc]
      exact keep
    | some loc =>
      by_cases hle : loc.line ≤ d.line
      · simp only [Propagate.Work.loop, hloc, hle, if_true]
        exact keep
      · simp only [Propagate.Work.loop, hloc, hle, if_false]
        obtain ⟨locs, hmap, hpw, hge⟩ := ih loc
        refine ⟨loc :: locs, by simp [hmap, hloc], List.pairwise_cons.mpr ⟨hge, hpw⟩, ?_⟩
        intro l hl
        rcases List.mem_cons.mp hl with h | h
        · rw [h]; omega
        · have := hge l h; omega

theorem Propagate.Work.loop_none (insts : List Instruction) :
    ∃ (n : Nat) (locs : List DILocation),
      (Propagate.Work.loop none insts).map (fun i => i.debugLoc)
        = List.replicate n none ++ locs.map some ∧
      List.Pairwise (fun a b => a.line ≤ b.line) locs := by
  induction insts with
  | nil => exact ⟨0, [], rfl, List.Pairwise.nil⟩
  | cons inst rest ih =>
    cases hloc : inst.debugLoc with
    | none =>
      obtain ⟨n, locs, hmap, hpw⟩ := ih
      refine ⟨n + 1, locs, ?_, hpw⟩
      simp only [Propagate.Work.loop, hloc, List.map_cons, hmap, List.replicate_succ,
        List.cons_append]
    | some loc =>
      obtain ⟨locs, hmap, hpw, hge⟩ := Propagate.Work.loop_some rest loc
      refine ⟨0, loc :: locs, ?_, List.pairwise_cons.mpr ⟨hge, hpw⟩⟩
      simp [Propagate.Work.loop, hloc, hmap]

/-- C19: when `Init` is defined for the block, `Work` returns the block with the
locations of its instructions being a run of unset ones followed by locations whose
lines never decrease; when `Init` is a location there is no unset instruction and every
line is at least the line of `Init`. -/
theorem C19_work_monotone (lines : Lines) (bb : BasicBlock) (dil : Option DILocation)
    (hinit : Propagate.Init lines bb = .ok dil) :
    ∃ (bb1 : BasicBlock) (n : Nat) (locs : List DILocation),
      Propagate.Work lines bb = .ok bb1 ∧ bb1.name = bb.name ∧
      bb1.insts.length = bb.insts.length ∧
      bb1.insts.map (fun i => i.debugLoc) = List.replicate n none ++ locs.map some ∧
      List.Pairwise (fun a b => a.line ≤ b.line) locs ∧
      (∀ d, dil = some d → n = 0 ∧ ∀ l ∈ locs, d.line ≤ l.line) := by
  have hlen : ∀ (d : Option DILocation) (l : List Instruction),
      (Propagate.Work.loop d l).length = l.length := by
    intro d l
    induction l generalizing d with
    | nil => rfl
    | cons inst rest ih =>
      cases hloc : inst.debugLoc <;> cases d <;>
        simp only [Propagate.Work.loop, hloc, List.length_cons, ih]
      split <;> simp only [List.length_cons, ih]
  cases dil with
  | none =>
    obtain ⟨n, locs, hmap, hpw⟩ := Propagate.Work.loop_none bb.insts
    refine ⟨{ bb with insts := Propagate.Work.loop none bb.insts }, n, locs,
      by simp only [Propagate.Work, hinit], rfl, hlen _ _, hmap, hpw, ?_⟩
    intro d hd; cases hd
  | some d0 =>
    obtain ⟨locs, hmap, hpw, hge⟩ := Propagate.Work.loop_some bb.insts d0
    refine ⟨{ bb with insts := Propagate.Work.loop (some d0) bb.insts }, 0, locs,
      by simp only [Propagate.Work, hinit], rfl, hlen _ _, ?_, hpw, ?_⟩
    · simpa using hmap
    · intro d hd
      cases hd
      exact ⟨rfl, hge⟩

/-- Witness of `C19_work_monotone`: the block at `0x10` with the lines 5, unset, 9, 6
and the map `{0x10 -> line 4}`. -/
theorem C19_work_monotone_witness :
    ∃ (bb1 : BasicBlock) (n : Nat) (locs : List DILocation),
      Propagate.Work Sample.table4 Sample.blockMixed = .ok bb1 ∧
      bb1.name = Sample.blockMixed.name ∧
      bb1.insts.length = Sample.blockMixed.insts.length ∧
      bb1.insts.map (fun i => i.debugLoc) = List.replicate n none ++ locs.map some ∧
      List.Pairwise (fun a b => a.line ≤ b.line) locs ∧
      (∀ d, some (Sample.loc 4) = some d → n = 0 ∧ ∀ l ∈ locs, d.line ≤ l.line) :=
  C19_work_monotone Sample.table4 Sample.blockMixed (some (Sample.loc 4)) (by decide)

theorem Propagate.Work.loop_idem (insts : List Instruction) :
    ∀ dil : Option DILocation,
      Propagate.Work.loop dil (Propagate.Work.loop dil insts)
        = Propagate.Work.loop dil insts := by
  induction insts with
  | nil => intro dil; rfl
  | cons inst rest ih =>
    intro dil
    cases hloc : inst.debugLoc with
    | none =>
      cases dil with
      | none => simp only [Propagate.Work.loop, hloc, ih]
      | some d => simp [Propagate.Work.loop, hloc, ih]
    | some loc =>
      cases dil with
      | none => simp only [Propagate.Work.loop, hloc, ih]
      | some d =>
        by_cases hle : loc.line ≤ d.line
        · simp [Propagate.Work.loop, hloc, hle, ih]
        · simp [Propagate.Work.loop, hloc, hle, ih]

theorem Propagate.Work_idem (lines : Lines) (bb bb1 : BasicBlock)
    (h : Propagate.Work lines bb = .ok bb1) : Propagate.Work lines bb1 = .ok bb1 := by
  unfold Propagate.Work at h
  cases hinit : Propagate.Init lines bb with
  | error e => rw [hinit] at h; cases h
  | ok dil =>
    rw [hinit] at h
    cases h
    have hinit1 : Propagate.Init lines
        { bb with insts := Propagate.Work.loop dil bb.insts } = .ok dil := hinit
    simp only [Propagate.Work, hinit1, Propagate.Work.loop_idem]

theorem Propagate.Run.blocks_idem (lines : Lines) :
    ∀ bs bs1 : List BasicBlock, Propagate.Run.blocks lines bs = .ok bs1 →
      Propagate.Run.blocks lines bs1 = .ok bs1 := by
  intro bs
  induction bs with
  | nil => intro bs1 h; cases h; rfl
  | cons b t ih =>
    intro bs1 h
    unfold Propagate.Run.blocks at h
    cases hw : Propagate.Work lines b with
    | error e => rw [hw] at h; cases h
    | ok b1 =>
      rw [hw] at h
      cases ht : Propagate.Run.blocks lines t with
      | error e => rw [ht] at h; cases h
      | ok t1 =>
        rw [ht] at h
        cases h
        simp only [Propagate.Run.blocks, Propagate.Work_idem lines b b1 hw, ih t1 ht]

theorem Propagate.Work.loop_head (dil : Option DILocation) (first : Instruction)
    (more : List Instruction) (h : first.debugLoc.isSome = true) :
    ∃ first1 more1, Propagate.Work.loop dil (first :: more) = first1 :: more1 ∧
      first1.debugLoc.isSome = true := by
  obtain ⟨loc, hloc⟩ := Option.isSome_iff_exists.mp h
  cases dil with
  | none =>
    exact ⟨first, Propagate.Work.loop (some loc) more,
      by simp only [Propagate.Work.loop, hloc], h⟩
  | some d =>
    by_cases hle : loc.line ≤ d.line
    · exact ⟨{ first with debugLoc := some d }, Propagate.Work.loop (some d) more,
        by simp only [Propagate.Work.loop, hloc, hle, if_true], rfl⟩
    · exact ⟨first, Propagate.Work.loop (some loc) more,
        by simp only [Propagate.Work.loop, hloc, hle, if_false], h⟩

theorem Propagate.Run_idem (lines : Lines) (func f1 : Function)
    (h : Propagate.Run func lines = .ok f1) : Propagate.Run f1 lines = .ok f1 := by
  unfold Propagate.Run at h
  cases hb : func.blocks with
  | nil => rw [hb] at h; cases h
  | cons entry rest =>
    rw [hb] at h
    simp only [] at h
    cases hi : entry.insts with
    | nil => rw [hi] at h; cases h
    | cons first more =>
      rw [hi] at h
      simp only [] at h
      by_cases hnone : first.debugLoc.isNone = true
      · rw [if_pos hnone] at h
        cases h
        simp only [Propagate.Run, hb, hi, hnone, if_true]
      · rw [if_neg hnone] at h
        cases hbs : Propagate.Run.blocks lines (entry :: rest) with
        | error e => rw [hbs] at h; cases h
        | ok bs =>
          rw [hbs] at h
          cases h
          have hidem := Propagate.Run.blocks_idem lines _ bs hbs
          have hsome : first.debugLoc.isSome = true := by
            cases hd : first.debugLoc with
            | none => rw [hd] at hnone; simp at hnone
            | some l => rfl
          unfold Propagate.Run.blocks at hbs
          cases hw : Propagate.Work lines entry with
          | error e => rw [hw] at hbs; cases hbs
          | ok entry1 =>
            rw [hw] at hbs
            cases ht : Propagate.Run.blocks lines rest with
            | error e => rw [ht] at hbs; cases hbs
            | ok rest1 =>
              rw [ht] at hbs
              cases hbs
              unfold Propagate.Work at hw
              cases hinit : Propagate.Init lines entry with
              | error e => rw [hinit] at hw; cases hw
              | ok dil =>
                rw [hinit] at hw
                cases hw
                obtain ⟨first1, more1, hloop, hfirst1⟩ :=
                  Propagate.Work.loop_head dil first more hsome
                have hnot : first1.debugLoc.isNone = false := by
                  cases hd : first1.debugLoc with
                  | none => rw [hd] at hfirst1; cases hfirst1
                  | some l => rfl
                simp only [Propagate.Run, hi, hloop, hnot, Bool.false_eq_true, if_false]
                rw [hi, hloop] at hidem
                rw [hidem]

theorem DbgMetadata.FillMissing.inner_idem (snapshot : UMap String Lines)
    (func f1 : Function) (h : DbgMetadata.FillMissing.inner snapshot func = .ok f1) :
    DbgMetadata.FillMissing.inner snapshot f1 = .ok f1 := by
  have hptr : ∀ lines g, Propagate.Run func lines = .ok g → g.ptr = func.ptr := by
    intro lines g hg
    unfold Propagate.Run at hg
    split at hg
    · cases hg
    · split at hg
      · cases hg
      · split at hg
        · cases hg; rfl
        · split at hg
          · cases hg
          · cases hg; rfl
  induction snapshot with
  | nil => unfold DbgMetadata.FillMissing.inner at h; cases h; rfl
  | cons e t ih =>
    obtain ⟨s0, l0⟩ := e
    unfold DbgMetadata.FillMissing.inner at h
    by_cases he : StringRef.endswith func.ptr.name.toList s0.toList = true
    · rw [if_pos he] at h
      have hp := hptr l0 f1 h
      unfold DbgMetadata.FillMissing.inner
      rw [hp, if_pos he]
      exact Propagate.Run_idem l0 func f1 h
    · rw [if_neg he] at h
      have h1 := ih h
      have hp : f1.ptr = func.ptr := by
        clear ih h1
        induction t with
        | nil => unfold DbgMetadata.FillMissing.inner at h; cases h; rfl
        | cons e2 t2 ih2 =>
          obtain ⟨s2, l2⟩ := e2
          unfold DbgMetadata.FillMissing.inner at h
          split at h
          · exact hptr l2 f1 h
          · exact ih2 h
      unfold DbgMetadata.FillMissing.inner
      rw [hp, if_neg he]
      exact h1

theorem DbgMetadata.FillMissing.outer_idem (snapshot : UMap String Lines) :
    ∀ m m1 : List Function, DbgMetadata.FillMissing.outer snapshot m = .ok m1 →
      DbgMetadata.FillMissing.outer snapshot m1 = .ok m1 := by
  intro m
  induction m with
  | nil => intro m1 h; cases h; rfl
  | cons f t ih =>
    intro m1 h
    unfold DbgMetadata.FillMissing.outer at h
    cases hf : DbgMetadata.FillMissing.inner snapshot f with
    | error e => rw [hf] at h; cases h
    | ok g =>
      rw [hf] at h
      cases ht : DbgMetadata.FillMissing.outer snapshot t with
      | error e => rw [ht] at h; cases h
      | ok t1 =>
        rw [ht] at h
        cases h
        simp only [DbgMetadata.FillMissing.outer,
          DbgMetadata.FillMissing.inner_idem snapshot f g hf, ih t1 ht]

/-- C20: when `Init` is defined for the block, `Work` returns a block on which `Work`
with the same map changes nothing; hence a second `Run` on the function that `Run`
returned, and a second `FillMissing` on the module that `FillMissing` returned, change
nothing. -/
theorem C20_work_idempotent (lines : Lines) :
    (∀ bb dil, Propagate.Init lines bb = .ok dil →
      ∃ bb1, Propagate.Work lines bb = .ok bb1 ∧ Propagate.Work lines bb1 = .ok bb1) ∧
    (∀ func f1, Propagate.Run func lines = .ok f1 → Propagate.Run f1 lines = .ok f1) ∧
    (∀ s m m1, DbgMetadata.FillMissing s m = .ok m1 →
      DbgMetadata.FillMissing s m1 = .ok m1) := by
  refine ⟨?_, fun func f1 h => Propagate.Run_idem lines func f1 h, ?_⟩
  · intro bb dil hinit
    have hw : Propagate.Work lines bb
        = .ok { bb with insts := Propagate.Work.loop dil bb.insts } := by
      simp only [Propagate.Work, hinit]
    exact ⟨_, hw, Propagate.Work_idem lines bb _ hw⟩
  · intro s m m1 h
    exact DbgMetadata.FillMissing.outer_idem s.s_ea_to_dbg m m1 h

/-- Witness of `C20_work_idempotent`: the block with the lines 5, unset, 9, 6 under the
map `{0x10 -> line 4}`. -/
theorem C20_work_idempotent_witness :
    ∃ bb1, Propagate.Work Sample.table4 Sample.blockMixed = .ok bb1 ∧
      Propagate.Work Sample.table4 bb1 = .ok bb1 :=
  (C20_work_idempotent Sample.table4).1 Sample.blockMixed (some (Sample.loc 4)) (by decide)

/-! ## The scope of the subprograms -/

theorem UMap.mem_of_mem_insert {K V : Type} [DecidableEq K] (slot : K → List K → Nat)
    (m : UMap K V) (k : K) (v : V) (e : K × V) (he : e ∈ UMap.insert slot m k v) :
    e ∈ m ∨ e = (k, v) := by
  unfold UMap.insert at he
  split at he
  · exact Or.inl he
  · simp only [List.mem_append, List.mem_cons] at he
    rcases he with h | h | h
    · exact Or.inl (List.mem_of_mem_take h)
    · exact Or.inr h
    · exact Or.inl (List.mem_of_mem_drop h)

theorem DbgMetadata.run_append (σ : Layout) (ops1 ops2 : List Op) :
    ∀ s : DbgMetadata, DbgMetadata.run σ s (ops1 ++ ops2) =
      match DbgMetadata.run σ s ops1 with
      | .error e => .error e
      | .ok s1 => DbgMetadata.run σ s1 ops2 := by
  induction ops1 with
  | nil => intro s; rfl
  | cons op rest ih =>
    intro s
    simp only [List.cons_append, DbgMetadata.run]
    cases DbgMetadata.step σ s op with
    | error e => rfl
    | ok s1 => exact ih s1

theorem DbgMetadata.run_AddDir (σ : Layout) (regs : List (String × String)) :
    ∀ s : DbgMetadata, ∃ s1,
      DbgMetadata.run σ s (regs.map (fun r => Op.AddDir r.1 r.2)) = .ok s1 ∧
      (regs ≠ [] → s1._dirs ≠ []) ∧
      (∀ e ∈ s1._dirs, e ∈ s._dirs ∨
        ∃ r ∈ regs, e = (r.1, { filename := r.1, directory := r.2 })) := by
  induction regs with
  | nil => intro s; exact ⟨s, rfl, fun h => absurd rfl h, fun e he => Or.inl he⟩
  | cons r rest ih =>
    intro s
    obtain ⟨s1, hrun, _, hmem⟩ := ih (DbgMetadata.AddDir σ s r.1 r.2)
    obtain ⟨_, _, _, hdirs⟩ := DbgMetadata.AddDir_fields σ s r.1 r.2
    refine ⟨s1, by simp only [List.map_cons, DbgMetadata.run, DbgMetadata.step, hrun], ?_, ?_⟩
    · intro _ hnil
      have hhead : (DbgMetadata.AddDir σ s r.1 r.2)._dirs ≠ [] := by
        rw [hdirs]
        unfold UMap.insert
        split
        · rename_i hsome
          intro hc
          rw [hc] at hsome
          simp [UMap.find] at hsome
        · simp
      cases hrest : rest with
      | nil =>
        rw [hrest] at hrun
        simp only [List.map_nil, DbgMetadata.run] at hrun
        cases hrun
        exact hhead hnil
      | cons r2 rest2 =>
        obtain ⟨s2, hrun2, hne2, _⟩ := ih (DbgMetadata.AddDir σ s r.1 r.2)
        rw [hrun] at hrun2
        cases hrun2
        exact hne2 (by rw [hrest]; exact List.cons_ne_nil _ _) hnil
    · intro e he
      rcases hmem e he with h | ⟨r2, hr2, h⟩
      · rw [hdirs] at h
        rcases UMap.mem_of_mem_insert _ _ _ _ e h with h1 | h1
        · exact Or.inl h1
        · exact Or.inr ⟨r, List.mem_cons_self _ _, h1⟩
      · exact Or.inr ⟨r2, List.mem_cons_of_mem _ hr2, h⟩

theorem DbgMetadata.CreateDummyProgram_dirs (σ : Layout) (s s1 : DbgMetadata)
    (f : FunctionPtr) (r : Option DISubprogram)
    (h : DbgMetadata.CreateDummyProgram σ s f = .ok (r, s1)) : s1._dirs = s._dirs := by
  cases he : Spec.eligible f with
  | false =>
    rw [DbgMetadata.CreateDummyProgram_ineligible σ s f he] at h
    cases h; rfl
  | true =>
    rw [DbgMetadata.CreateDummyProgram_eligible σ s f he] at h
    cases hd : s._dirs.head? with
    | none => rw [hd] at h; cases h
    | some d => rw [hd] at h; cases h; rfl

theorem DbgMetadata.run_CreateDummyProgram_dirs (σ : Layout) (funcs : List FunctionPtr) :
    ∀ s s1 : DbgMetadata,
      DbgMetadata.run σ s (funcs.map Op.CreateDummyProgram) = .ok s1 →
      s1._dirs = s._dirs := by
  induction funcs with
  | nil => intro s s1 h; cases h; rfl
  | cons f rest ih =>
    intro s s1 h
    simp only [List.map_cons, DbgMetadata.run, DbgMetadata.step] at h
    cases hc : DbgMetadata.CreateDummyProgram σ s f with
    | error e => rw [hc] at h; cases h
    | ok p =>
      rw [hc] at h
      have h1 := ih p.2 s1 h
      rw [h1]
      exact DbgMetadata.CreateDummyProgram_dirs σ s p.2 f p.1 hc

/-- C18 (as stated, refuted): after the directories `a.c` and `b.c` are registered in
this order, with an iteration order in which a new key comes first, the subprogram
created for `Sample.func` is scoped to the file node of `b.c`, not to that of the
first-registered `a.c`. -/
theorem C18_counterexample :
    (DbgMetadata.run Sample.layout DbgMetadata.init Sample.twoDirs).map
        (fun s => s._dirs.map Prod.fst) = .ok ["b.c", "a.c"] ∧
    ((DbgMetadata.run Sample.layout DbgMetadata.init Sample.twoDirs).bind
        (fun s => DbgMetadata.CreateDummyProgram Sample.layout s Sample.func)).map
        (fun p => p.1.map (fun sp => sp.scope))
      = .ok (some { filename := "b.c", directory := "." }) ∧
    ((DbgMetadata.run Sample.layout DbgMetadata.init Sample.twoDirs).bind
        (fun s => DbgMetadata.CreateDummyProgram Sample.layout s Sample.func)).map
        (fun p => p.1.map (fun sp => sp.scope))
      ≠ .ok (some { filename := "a.c", directory := "." }) := by
  decide

/-- C18 (amended): after one or more directory registrations followed by calls of
`CreateDummyProgram`, the subprogram created for an eligible function is scoped to the
file node of the entry that `_dirs` yields first in its iteration order, which is one
of the registered directories. -/
theorem C18_subprogram_scope (σ : Layout) (regs : List (String × String))
    (funcs : List FunctionPtr) (f : FunctionPtr) (s : DbgMetadata)
    (hne : regs ≠ []) (he : Spec.eligible f = true)
    (hs : DbgMetadata.run σ DbgMetadata.init
      (regs.map (fun r => Op.AddDir r.1 r.2) ++ funcs.map Op.CreateDummyProgram) = .ok s) :
    ∃ r ∈ regs, ∃ sp s1,
      s._dirs.head? = some (r.1, { filename := r.1, directory := r.2 }) ∧
      DbgMetadata.CreateDummyProgram σ s f = .ok (some sp, s1) ∧
      sp.scope = { filename := r.1, directory := r.2 } ∧
      sp.file = { filename := r.1, directory := r.2 } := by
  rw [DbgMetadata.run_append] at hs
  obtain ⟨s0, hrun, hnonempty, hmem⟩ := DbgMetadata.run_AddDir σ regs DbgMetadata.init
  rw [hrun] at hs
  simp only [] at hs
  have hdirs := DbgMetadata.run_CreateDummyProgram_dirs σ funcs s0 s hs
  cases hd : s._dirs with
  | nil => rw [hdirs] at hd; exact absurd hd (hnonempty hne)
  | cons d rest =>
    have hdmem : d ∈ s0._dirs := by rw [← hdirs, hd]; exact List.mem_cons_self _ _
    rcases hmem d hdmem with h | ⟨r, hr, hdr⟩
    · simp [DbgMetadata.init] at h
    · have hc := DbgMetadata.CreateDummyProgram_eligible σ s f he
      rw [hd] at hc
      simp only [List.head?_cons] at hc
      refine ⟨r, hr, _, _, by rw [hdr]; rfl, hc, ?_, ?_⟩
      · rw [hdr]
      · rw [hdr]

/-- Witness of `C18_subprogram_scope`: the directories `a.c`, `b.c` and the function
`Sample.func`. -/
theorem C18_subprogram_scope_witness :
    ∃ r ∈ [("a.c", "."), ("b.c", ".")], ∃ sp s1,
      (DbgMetadata.AddDir Sample.layout
        (DbgMetadata.AddDir Sample.layout DbgMetadata.init "a.c" ".") "b.c" ".")._dirs.head?
        = some (r.1, { filename := r.1, directory := r.2 }) ∧
      DbgMetadata.CreateDummyProgram Sample.layout
        (DbgMetadata.AddDir Sample.layout
          (DbgMetadata.AddDir Sample.layout DbgMetadata.init "a.c" ".") "b.c" ".") Sample.func
        = .ok (some sp, s1) ∧
      sp.scope = { filename := r.1, directory := r.2 } ∧
      sp.file = { filename := r.1, directory := r.2 } :=
  C18_subprogram_scope Sample.layout [("a.c", "."), ("b.c", ".")] [] Sample.func
    (DbgMetadata.AddDir Sample.layout
      (DbgMetadata.AddDir Sample.layout DbgMetadata.init "a.c" ".") "b.c" ".")
    (by decide) (by decide) (by decide)

/-! ## `Ctx::PropagateForward` -/

theorem Ctx.PropagateForward.walk_length (loc : Option DILocation) (l : List Instruction) :
    ∀ cur : Nat, (Ctx.PropagateForward.walk loc cur l).length = l.length := by
  induction l with
  | nil => intro cur; cases cur <;> rfl
  | cons inst rest ih =>
    intro cur
    cases cur with
    | zero => simp [Ctx.PropagateForward.walk]
    | succ k => simp [Ctx.PropagateForward.walk, ih k]

theorem Ctx.PropagateForward.walk_get (loc : Option DILocation) (l : List Instruction) :
    ∀ (cur j : Nat) (inst : Instruction), l[j]? = some inst →
      (Ctx.PropagateForward.walk loc cur l)[j]?
        = some (if cur < j then { inst with debugLoc := loc } else inst) := by
  induction l with
  | nil => intro cur j inst h; simp at h
  | cons x rest ih =>
    intro cur j inst h
    cases cur with
    | zero =>
      cases j with
      | zero =>
        simp only [List.getElem?_cons_zero] at h
        simp [Ctx.PropagateForward.walk, Option.some.inj h]
      | succ k =>
        simp only [List.getElem?_cons_succ] at h
        simp only [Ctx.PropagateForward.walk, List.getElem?_cons_succ, List.getElem?_map, h,
          Option.map_some', Nat.zero_lt_succ, if_true]
    | succ c =>
      cases j with
      | zero =>
        simp only [List.getElem?_cons_zero] at h
        simp [Ctx.PropagateForward.walk, Option.some.inj h]
      | succ k =>
        simp only [List.getElem?_cons_succ] at h
        simp only [Ctx.PropagateForward.walk, List.getElem?_cons_succ, ih c k inst h,
          Nat.succ_lt_succ_iff]

theorem Ctx.PropagateForward.walk_last (loc : Option DILocation) (l : List Instruction) :
    ∀ cur : Nat, l.length ≤ cur + 1 → Ctx.PropagateForward.walk loc cur l = l := by
  induction l with
  | nil => intro cur _; cases cur <;> rfl
  | cons x rest ih =>
    intro cur h
    cases cur with
    | zero =>
      have : rest = [] := by
        cases rest with
        | nil => rfl
        | cons y t => simp at h
      simp [Ctx.PropagateForward.walk, this]
    | succ c =>
      simp only [Ctx.PropagateForward.walk]
      rw [ih c (by simp only [List.length_cons] at h; omega)]

theorem List.set_of_getElem? {α : Type} (l : List α) (i : Nat) (a : α) (h : l[i]? = some a) :
    l.set i a = l := by
  induction l generalizing i with
  | nil => rfl
  | cons x t ih =>
    cases i with
    | zero =>
      simp only [List.getElem?_cons_zero] at h
      simp [Option.some.inj h]
    | succ k =>
      simp only [List.getElem?_cons_succ] at h
      simp [ih k h]

theorem Ctx.PropagateForward_positioned (c : Ctx) (body : List BasicBlock)
    (loc : Option DILocation) (b : Nat) (bb : BasicBlock) (cur : Nat)
    (hb : c.block = some b) (hbb : body[b]? = some bb)
    (hcur : (c.current = none ∧ cur = 0 ∧ bb.insts ≠ []) ∨
      (c.current = some cur ∧ cur < bb.insts.length)) :
    ∃ body1 c1 bb1,
      Ctx.PropagateForward c body loc = .ok (body1, c1) ∧
      c1.current = some (bb.insts.length - 1) ∧ c1.block = some b ∧ c1.dil = loc ∧
      body1.length = body.length ∧ (∀ j, j ≠ b → body1[j]? = body[j]?) ∧
      body1[b]? = some bb1 ∧ bb1.name = bb.name ∧ bb1.insts.length = bb.insts.length ∧
      (∀ j inst, bb.insts[j]? = some inst →
        bb1.insts[j]? = some (if cur < j then { inst with debugLoc := loc } else inst)) ∧
      (cur = bb.insts.length - 1 → body1 = body) := by
  have hlt : cur < bb.insts.length := by
    rcases hcur with ⟨_, h0, hne⟩ | ⟨_, h⟩
    · rw [h0]
      cases hi : bb.insts with
      | nil => exact absurd hi hne
      | cons x t => simp
    · exact h
  have hblen : b < body.length := by
    rcases Nat.lt_or_ge b body.length with h | h
    · exact h
    · rw [List.getElem?_eq_none h] at hbb; cases hbb
  have hrun : Ctx.PropagateForward c body loc =
      .ok (body.set b { bb with insts := Ctx.PropagateForward.walk loc cur bb.insts },
        { c with current := some (bb.insts.length - 1), dil := loc }) := by
    unfold Ctx.PropagateForward
    rcases hcur with ⟨hc, h0, hne⟩ | ⟨hc, _⟩
    · have hemp : bb.insts.isEmpty = false := by
        cases hi : bb.insts with
        | nil => exact absurd hi hne
        | cons x t => rfl
      rw [h0] at hlt
      simp only [hb, hbb, hc, hemp, Bool.false_eq_true, if_false, hlt, if_true, h0]
    · simp only [hb, hbb, hc, hlt, if_true]
  refine ⟨_, _, { bb with insts := Ctx.PropagateForward.walk loc cur bb.insts }, hrun, rfl, hb,
    rfl, by simp, ?_, ?_, rfl, Ctx.PropagateForward.walk_length loc bb.insts cur, ?_, ?_⟩
  · intro j hj
    exact List.getElem?_set_ne (Ne.symm hj)
  · exact List.getElem?_set_self hblen
  · intro j inst hj
    exact Ctx.PropagateForward.walk_get loc bb.insts cur j inst hj
  · intro hlast
    have hw : Ctx.PropagateForward.walk loc cur bb.insts = bb.insts :=
      Ctx.PropagateForward.walk_last loc bb.insts cur (by omega)
    rw [hw]
    exact List.set_of_getElem? body b bb hbb

/-- C11: for a non-empty active block and a cursor that is uninitialized (then the
first instruction counts as the cursor) or positioned at an instruction of the block,
`PropagateForward(loc)` assigns `loc` to exactly the instructions after the cursor,
leaves the instructions at or before the cursor and the other blocks as they were,
records `loc` as pending and leaves the cursor at the last instruction of the block;
with the cursor at the last instruction nothing changes. -/
theorem C11_propagate_forward (c : Ctx) (body : List BasicBlock)
    (loc : Option DILocation) (b : Nat) (bb : BasicBlock) (cur : Nat)
    (hb : c.block = some b) (hbb : body[b]? = some bb)
    (hcur : (c.current = none ∧ cur = 0 ∧ bb.insts ≠ []) ∨
      (c.current = some cur ∧ cur < bb.insts.length)) :
    ∃ body1 c1 bb1,
      Ctx.PropagateForward c body loc = .ok (body1, c1) ∧
      c1.current = some (bb.insts.length - 1) ∧ c1.block = some b ∧ c1.dil = loc ∧
      body1.length = body.length ∧ (∀ j, j ≠ b → body1[j]? = body[j]?) ∧
      body1[b]? = some bb1 ∧ bb1.name = bb.name ∧ bb1.insts.length = bb.insts.length ∧
      (∀ j inst, bb.insts[j]? = some inst →
        bb1.insts[j]? = some (if cur < j then { inst with debugLoc := loc } else inst)) ∧
      (cur = bb.insts.length - 1 → body1 = body) :=
  Ctx.PropagateForward_positioned c body loc b bb cur hb hbb hcur

/-- Witness of `C11_propagate_forward`: the cursor after `SetBlock` on a block of three
instructions. -/
theorem C11_propagate_forward_witness :
    ∃ body1 c1 bb1,
      Ctx.PropagateForward Sample.cursor Sample.bodyTwo (some (Sample.loc 1))
        = .ok (body1, c1) ∧
      c1.current = some (3 - 1) ∧ c1.block = some 0 ∧ c1.dil = some (Sample.loc 1) ∧
      body1.length = Sample.bodyTwo.length ∧
      (∀ j, j ≠ 0 → body1[j]? = Sample.bodyTwo[j]?) ∧
      body1[0]? = some bb1 ∧ bb1.name = "block_10" ∧ bb1.insts.length = 3 ∧
      (∀ j inst, [(⟨none⟩ : Instruction), ⟨some (Sample.loc 7)⟩, ⟨none⟩][j]? = some inst →
        bb1.insts[j]?
          = some (if 0 < j then { inst with debugLoc := some (Sample.loc 1) } else inst)) ∧
      (0 = 3 - 1 → body1 = Sample.bodyTwo) :=
  C11_propagate_forward Sample.cursor Sample.bodyTwo (some (Sample.loc 1)) 0
    { name := "block_10", insts := [⟨none⟩, ⟨some (Sample.loc 7)⟩, ⟨none⟩] } 0
    rfl rfl (Or.inl ⟨rfl, rfl, by decide⟩)

/-- C12 (as stated, refuted): in a session on a block with one instruction, after
`PropagateForward(L1)`, the emission of two instructions and `PropagateForward(L2)`,
the two emitted instructions carry `L2`, not `L1`. -/
theorem C12_counterexample :
    ((Ctx.PropagateForward Sample.cursor Sample.bodyOne (some (Sample.loc 1))).bind
        (fun p => Ctx.PropagateForward p.2 (emit p.1 0 [⟨none⟩, ⟨none⟩])
          (some (Sample.loc 2)))).map
        (fun p => p.1.map (fun bb => bb.insts.map (fun i => i.debugLoc)))
      = .ok [[none, some (Sample.loc 2), some (Sample.loc 2)]] ∧
    ((Ctx.PropagateForward Sample.cursor Sample.bodyOne (some (Sample.loc 1))).bind
        (fun p => Ctx.PropagateForward p.2 (emit p.1 0 [⟨none⟩, ⟨none⟩])
          (some (Sample.loc 2)))).map
        (fun p => p.1.map (fun bb => bb.insts.map (fun i => i.debugLoc)))
      ≠ .ok [[none, some (Sample.loc 1), some (Sample.loc 1)]] := by
  decide

/-- C12 (amended): in a session on a non-empty block, when the caller supplies `L1`
(`PropagateForward(L1)`), instructions are then appended to the active block, and the
caller supplies `L2` (`PropagateForward(L2)`), every instruction emitted between the two
calls carries `L2` afterwards, and the instructions that were in the block before are
as the first call left them. -/
theorem C12_forward_fill (c : Ctx) (body : List BasicBlock) (L1 L2 : Option DILocation)
    (new : List Instruction) (b : Nat) (bb : BasicBlock) (cur : Nat)
    (hb : c.block = some b) (hbb : body[b]? = some bb)
    (hcur : (c.current = none ∧ cur = 0 ∧ bb.insts ≠ []) ∨
      (c.current = some cur ∧ cur < bb.insts.length)) :
    ∃ body1 c1 bb1 body3 c3 bb3,
      Ctx.PropagateForward c body L1 = .ok (body1, c1) ∧ body1[b]? = some bb1 ∧
      Ctx.PropagateForward c1 (emit body1 b new) L2 = .ok (body3, c3) ∧
      body3[b]? = some bb3 ∧
      bb3.insts.length = bb.insts.length + new.length ∧
      (∀ k inst, new[k]? = some inst →
        bb3.insts[bb.insts.length + k]? = some { inst with debugLoc := L2 }) ∧
      (∀ j, j < bb.insts.length → bb3.insts[j]? = bb1.insts[j]?) := by
  obtain ⟨body1, c1, bb1, hrun1, hc1, hb1, _, hlen1, _, hbb1, _, hl1, _, _⟩ :=
    Ctx.PropagateForward_positioned c body L1 b bb cur hb hbb hcur
  have hpos : 0 < bb.insts.length := by
    rcases hcur with ⟨_, _, hne⟩ | ⟨_, h⟩
    · cases hi : bb.insts with
      | nil => exact absurd hi hne
      | cons x t => simp
    · omega
  have hblen : b < body1.length := by
    rcases Nat.lt_or_ge b body1.length with h | h
    · exact h
    · rw [List.getElem?_eq_none h] at hbb1; cases hbb1
  have hemit : emit body1 b new = body1.set b { bb1 with insts := bb1.insts ++ new } := by
    simp only [emit, hbb1]
  have hget : (emit body1 b new)[b]? = some { bb1 with insts := bb1.insts ++ new } := by
    rw [hemit]; exact List.getElem?_set_self hblen
  obtain ⟨body3, c3, bb3, hrun3, _, _, _, _, _, hbb3, _, hl3, hget3, _⟩ :=
    Ctx.PropagateForward_positioned c1 (emit body1 b new) L2 b
      { bb1 with insts := bb1.insts ++ new } (bb.insts.length - 1) hb1 hget
      (Or.inr ⟨hc1, by simp only [List.length_append, hl1]; omega⟩)
  refine ⟨body1, c1, bb1, body3, c3, bb3, hrun1, hbb1, hrun3, hbb3, ?_, ?_, ?_⟩
  · rw [hl3]; simp only [List.length_append, hl1]
  · intro k inst hk
    have hsrc : (bb1.insts ++ new)[bb.insts.length + k]? = some inst := by
      rw [List.getElem?_append_right (by omega), hl1, Nat.add_sub_cancel_left]
      exact hk
    rw [hget3 _ inst hsrc, if_pos (by omega)]
  · intro j hj
    have hjlt : j < bb1.insts.length := by omega
    obtain ⟨inst, hinst⟩ : ∃ inst, bb1.insts[j]? = some inst :=
      ⟨bb1.insts[j], List.getElem?_eq_getElem hjlt⟩
    have hsrc : (bb1.insts ++ new)[j]? = some inst := by
      rw [List.getElem?_append_left hjlt]; exact hinst
    rw [hget3 _ inst hsrc, if_neg (by omega), hinst]

/-- Witness of `C12_forward_fill`: the cursor after `SetBlock` on a block with one
instruction, and two emitted instructions. -/
theorem C12_forward_fill_witness :
    ∃ body1 c1 bb1 body3 c3 bb3,
      Ctx.PropagateForward Sample.cursor Sample.bodyOne (some (Sample.loc 1))
        = .ok (body1, c1) ∧ body1[0]? = some bb1 ∧
      Ctx.PropagateForward c1 (emit body1 0 [⟨none⟩, ⟨none⟩]) (some (Sample.loc 2))
        = .ok (body3, c3) ∧
      body3[0]? = some bb3 ∧
      bb3.insts.length = 1 + 2 ∧
      (∀ k inst, [(⟨none⟩ : Instruction), ⟨none⟩][k]? = some inst →
        bb3.insts[1 + k]? = some { inst with debugLoc := some (Sample.loc 2) }) ∧
      (∀ j, j < 1 → bb3.insts[j]? = bb1.insts[j]?) :=
  C12_forward_fill Sample.cursor Sample.bodyOne (some (Sample.loc 1)) (some (Sample.loc 2))
    [⟨none⟩, ⟨none⟩] 0 { name := "block_10", insts := [⟨none⟩] } 0 rfl rfl
    (Or.inl ⟨rfl, rfl, by decide⟩)

/-! ## `DbgMetadata::OneBlockAnnotate` -/

theorem DbgMetadata.Fetch_total (σ : Layout) (s : DbgMetadata) (f : FunctionPtr) (ea : Nat)
    (h : DbgMetadata.Inv s) : ∃ r s1, DbgMetadata.Fetch σ s f ea = .ok (r, s1) := by
  cases hsp : UMap.find s._func_to_dbg f with
  | none => exact ⟨none, s, DbgMetadata.Fetch_unregistered σ s f ea hsp⟩
  | some sp =>
    have hsome : (UMap.find s.ea_to_dbg f).isSome = true := by rw [h.both f, hsp]; rfl
    obtain ⟨m, hm⟩ := Option.isSome_iff_exists.mp hsome
    obtain ⟨ho, _⟩ := h.locs f m hm
    cases hloc : Lines.find m ea with
    | some loc => exact ⟨_, _, DbgMetadata.Fetch_cached σ s f ea sp m loc hsp hm hloc⟩
    | none =>
      cases hline : UMap.find s.ea_to_line ea with
      | none => exact ⟨_, _, DbgMetadata.Fetch_unknown σ s f ea sp m hsp hm hloc hline⟩
      | some line =>
        have hd : s._dirs ≠ [] := h.dirs f (by rw [hsp]; rfl)
        exact ⟨_, _, DbgMetadata.Fetch_create σ s f ea line sp m hd ho hsp hm hloc hline⟩

theorem DbgMetadata.OneBlockAnnotate.loop_length (r : Option DILocation)
    (l : List Instruction) : (DbgMetadata.OneBlockAnnotate.loop r l).length = l.length := by
  induction l with
  | nil => rfl
  | cons x t ih => simp [DbgMetadata.OneBlockAnnotate.loop, ih]

theorem DbgMetadata.OneBlockAnnotate.loop_get (r : Option DILocation)
    (l : List Instruction) :
    ∀ (k : Nat) (inst : Instruction), l[k]? = some inst →
      (DbgMetadata.OneBlockAnnotate.loop r l)[k]?
        = some (if inst.debugLoc.isSome then inst else { inst with debugLoc := r }) := by
  induction l with
  | nil => intro k inst h; simp at h
  | cons x t ih =>
    intro k inst h
    cases k with
    | zero =>
      simp only [List.getElem?_cons_zero] at h
      have hx : x = inst := Option.some.inj h
      subst hx
      cases hd : x.debugLoc <;>
        simp [DbgMetadata.OneBlockAnnotate.loop, hd]
    | succ j =>
      simp only [List.getElem?_cons_succ] at h
      simp only [DbgMetadata.OneBlockAnnotate.loop, List.getElem?_cons_succ, ih j inst h]

/-- C14: in every state reached from the empty cache, `OneBlockAnnotate` on a block of
the function body succeeds with the cache that `Fetch` leaves; every instruction of the
block that carries a location keeps it, every instruction without one receives the
result of `Fetch` (none included), and the other blocks are unchanged. -/
theorem C14_one_block_annotate (σ : Layout) (ops : List Op) (s : DbgMetadata)
    (body : List BasicBlock) (func : FunctionPtr) (bb : Nat) (ea : Nat) (b : BasicBlock)
    (hs : DbgMetadata.run σ DbgMetadata.init ops = .ok s) (hb : body[bb]? = some b) :
    ∃ r s1 body1 b1,
      DbgMetadata.Fetch σ s func ea = .ok (r, s1) ∧
      DbgMetadata.OneBlockAnnotate σ s body func bb ea = .ok (body1, s1) ∧
      body1.length = body.length ∧ (∀ j, j ≠ bb → body1[j]? = body[j]?) ∧
      body1[bb]? = some b1 ∧ b1.name = b.name ∧ b1.insts.length = b.insts.length ∧
      ∀ (k : Nat) (inst : Instruction), b.insts[k]? = some inst →
        b1.insts[k]? = some (if inst.debugLoc.isSome then inst
          else { inst with debugLoc := r }) := by
  have h := DbgMetadata.Inv_run σ ops _ s DbgMetadata.Inv_init hs
  obtain ⟨r, s1, hf⟩ := DbgMetadata.Fetch_total σ s func ea h
  have hblen : bb < body.length := by
    rcases Nat.lt_or_ge bb body.length with h1 | h1
    · exact h1
    · rw [List.getElem?_eq_none h1] at hb; cases hb
  refine ⟨r, s1, body.set bb { b with insts := DbgMetadata.OneBlockAnnotate.loop r b.insts },
    { b with insts := DbgMetadata.OneBlockAnnotate.loop r b.insts }, hf, ?_, by simp, ?_, ?_,
    rfl, DbgMetadata.OneBlockAnnotate.loop_length r b.insts, ?_⟩
  · simp only [DbgMetadata.OneBlockAnnotate, hf, hb]
  · intro j hj
    exact List.getElem?_set_ne (Ne.symm hj)
  · exact List.getElem?_set_self hblen
  · intro k inst hk
    exact DbgMetadata.OneBlockAnnotate.loop_get r b.insts k inst hk

/-- Witness of `C14_one_block_annotate`: the first block of `Sample.bodyTwo`, the
function `Sample.func` and the address `0x1a` after the sample calls. -/
theorem C14_one_block_annotate_witness :
    ∃ r s1 body1 b1,
      DbgMetadata.Fetch Sample.layout Sample.registered Sample.func 0x1a = .ok (r, s1) ∧
      DbgMetadata.OneBlockAnnotate Sample.layout Sample.registered Sample.bodyTwo
        Sample.func 0 0x1a = .ok (body1, s1) ∧
      body1.length = Sample.bodyTwo.length ∧
      (∀ j, j ≠ 0 → body1[j]? = Sample.bodyTwo[j]?) ∧
      body1[0]? = some b1 ∧ b1.name = "block_10" ∧ b1.insts.length = 3 ∧
      ∀ (k : Nat) (inst : Instruction),
        [(⟨none⟩ : Instruction), ⟨some (Sample.loc 7)⟩, ⟨none⟩][k]? = some inst →
        b1.insts[k]? = some (if inst.debugLoc.isSome then inst
          else { inst with debugLoc := r }) :=
  C14_one_block_annotate Sample.layout Sample.calls Sample.registered Sample.bodyTwo
    Sample.func 0 0x1a { name := "block_10", insts := [⟨none⟩, ⟨some (Sample.loc 7)⟩, ⟨none⟩] }
    (by decide) rfl

/-! ## The invariant of the cache over a lifting session -/

theorem UMap.insert_nodup {K V : Type} [DecidableEq K] (slot : K → List K → Nat)
    (m : UMap K V) (k : K) (v : V) (h : (m.map Prod.fst).Nodup) :
    ((UMap.insert slot m k v).map Prod.fst).Nodup := by
  unfold UMap.insert
  split
  · exact h
  · rename_i hnone
    have hk : k ∉ m.map Prod.fst := by
      intro hmem
      obtain ⟨e, he, hek⟩ := List.mem_map.mp hmem
      exact hnone ((UMap.find_isSome_iff m k).mpr ⟨e, he, hek⟩)
    simp only [List.map_append, List.map_cons]
    have hperm := @List.perm_middle _ k (List.map Prod.fst (m.take (slot k (m.map Prod.fst))))
      (List.map Prod.fst (m.drop (slot k (m.map Prod.fst))))
    rw [hperm.nodup_iff, ← List.map_append, List.take_append_drop]
    exact List.nodup_cons.mpr ⟨hk, h⟩

theorem DbgMetadata.CreateDummyProgram_frame (σ : Layout) (s s1 : DbgMetadata)
    (f : FunctionPtr) (r : Option DISubprogram)
    (h : DbgMetadata.CreateDummyProgram σ s f = .ok (r, s1)) :
    s1.ea_to_line = s.ea_to_line ∧ (DbgMetadata.Distinct s → DbgMetadata.Distinct s1) := by
  cases he : Spec.eligible f with
  | false =>
    rw [DbgMetadata.CreateDummyProgram_ineligible σ s f he] at h
    cases h; exact ⟨rfl, id⟩
  | true =>
    rw [DbgMetadata.CreateDummyProgram_eligible σ s f he] at h
    cases hd : s._dirs.head? with
    | none => rw [hd] at h; cases h
    | some d =>
      rw [hd] at h; cases h
      exact ⟨rfl, fun hn => UMap.insert_nodup _ _ _ _ hn⟩

theorem DbgMetadata.CreateEaMetadata.node_frame (σ : Layout) (s s1 : DbgMetadata)
    (f : FunctionPtr) (ea line : Nat)
    (h : DbgMetadata.CreateEaMetadata.node σ s f ea line = .ok s1) :
    s1.ea_to_line = s.ea_to_line ∧ (DbgMetadata.Distinct s → DbgMetadata.Distinct s1) := by
  unfold DbgMetadata.CreateEaMetadata.node at h
  cases hd : s._dirs.head? with
  | none => rw [hd] at h; cases h
  | some d =>
    rw [hd] at h
    simp only [] at h
    cases hm : UMap.find s.ea_to_dbg f with
    | none => rw [hm] at h; cases h
    | some m =>
      rw [hm] at h
      cases h
      exact ⟨rfl, fun hn => UMap.insert_nodup _ _ _ _ hn⟩

theorem DbgMetadata.CreateEaMetadata_frame (σ : Layout) (s s1 : DbgMetadata)
    (f : FunctionPtr) (ea : Nat) (h : DbgMetadata.CreateEaMetadata σ s f ea = .ok s1) :
    s1.ea_to_line = s.ea_to_line ∧ (DbgMetadata.Distinct s → DbgMetadata.Distinct s1) := by
  unfold DbgMetadata.CreateEaMetadata at h
  cases hl : UMap.find s.ea_to_line ea with
  | none => rw [hl] at h; cases h; exact ⟨rfl, id⟩
  | some line =>
    rw [hl] at h
    simp only [] at h
    split at h
    · cases hc : DbgMetadata.CreateDummyProgram σ s f with
      | error e => rw [hc] at h; cases h
      | ok p =>
        obtain ⟨r, s2⟩ := p
        rw [hc] at h
        simp only [] at h
        obtain ⟨e1, n1⟩ := DbgMetadata.CreateDummyProgram_frame σ s s2 f r hc
        obtain ⟨e2, n2⟩ := DbgMetadata.CreateEaMetadata.node_frame σ s2 s1 f ea line h
        exact ⟨e2.trans e1, fun hn => n2 (n1 hn)⟩
    · exact DbgMetadata.CreateEaMetadata.node_frame σ s s1 f ea line h

theorem DbgMetadata.Fetch_frame (σ : Layout) (s s1 : DbgMetadata) (f : FunctionPtr)
    (ea : Nat) (r : Option DILocation) (h : DbgMetadata.Fetch σ s f ea = .ok (r, s1)) :
    s1.ea_to_line = s.ea_to_line ∧ (DbgMetadata.Distinct s → DbgMetadata.Distinct s1) := by
  unfold DbgMetadata.Fetch at h
  split at h
  · cases h; exact ⟨rfl, id⟩
  · cases hm : UMap.find s.ea_to_dbg f with
    | none => rw [hm] at h; cases h
    | some m =>
      rw [hm] at h
      simp only [] at h
      split at h
      · cases hc : DbgMetadata.CreateEaMetadata σ s f ea with
        | error e => rw [hc] at h; cases h
        | ok s2 =>
          rw [hc] at h
          simp only [DbgMetadata.Fetch.requery] at h
          cases hm2 : UMap.find s2.ea_to_dbg f with
          | none => rw [hm2] at h; cases h
          | some m2 =>
            rw [hm2] at h; cases h
            exact DbgMetadata.CreateEaMetadata_frame σ s s1 f ea hc
      · simp only [DbgMetadata.Fetch.requery, hm] at h
        cases h; exact ⟨rfl, id⟩

theorem DbgMetadata.Distinct_Parse_lines (σ : Layout) (lines : List (List Char)) :
    ∀ s s1 : DbgMetadata, DbgMetadata.Distinct s →
      DbgMetadata.Parse.lines σ s lines = .ok s1 → DbgMetadata.Distinct s1 := by
  induction lines with
  | nil => intro s s1 h hr; cases hr; exact h
  | cons line rest ih =>
    intro s s1 h hr
    unfold DbgMetadata.Parse.lines at hr
    cases hl : DbgMetadata.Parse.line σ s line with
    | error e => rw [hl] at hr; cases hr
    | ok s2 =>
      rw [hl] at hr
      simp only [] at hr
      have h2 : DbgMetadata.Distinct s2 := by
        rcases DbgMetadata.Parse.line_ok σ s s2 line hl with ⟨a, b, e⟩ | ⟨fn, ea, l, e⟩
        · unfold DbgMetadata.Distinct
          rw [e, (DbgMetadata.AddDir_fields σ s a b).2.2.1]
          exact h
        · rw [e]; exact h
      exact ih s2 s1 h2 hr

theorem DbgMetadata.Distinct_step (σ : Layout) (s s1 : DbgMetadata) (op : Op)
    (h : DbgMetadata.Distinct s) (hr : DbgMetadata.step σ s op = .ok s1) :
    DbgMetadata.Distinct s1 := by
  cases op with
  | Parse filename file =>
    simp only [DbgMetadata.step, DbgMetadata.Parse] at hr
    split at hr
    · cases hr; exact h
    · exact DbgMetadata.Distinct_Parse_lines σ _ s s1 h hr
  | AddDir a b =>
    simp only [DbgMetadata.step] at hr
    cases hr
    unfold DbgMetadata.Distinct
    rw [(DbgMetadata.AddDir_fields σ s a b).2.2.1]
    exact h
  | AddEa fn ea l =>
    simp only [DbgMetadata.step] at hr
    cases hr; exact h
  | CreateDummyProgram f =>
    simp only [DbgMetadata.step] at hr
    cases hc : DbgMetadata.CreateDummyProgram σ s f with
    | error e => rw [hc] at hr; cases hr
    | ok p =>
      rw [hc] at hr
      cases hr
      exact (DbgMetadata.CreateDummyProgram_frame σ s p.2 f p.1 hc).2 h
  | CreateEaMetadata f ea => exact (DbgMetadata.CreateEaMetadata_frame σ s s1 f ea hr).2 h
  | Fetch f ea =>
    simp only [DbgMetadata.step] at hr
    cases hc : DbgMetadata.Fetch σ s f ea with
    | error e => rw [hc] at hr; cases hr
    | ok p =>
      rw [hc] at hr
      cases hr
      exact (DbgMetadata.Fetch_frame σ s p.2 f ea p.1 hc).2 h
  | Petrify =>
    simp only [DbgMetadata.step] at hr
    cases hr
    unfold DbgMetadata.Distinct DbgMetadata.Petrify
    rw [DbgMetadata.Petrify_fields]
    exact h

theorem Session.step_cache (σ : Layout) (ss ss1 : Session) (call : Call)
    (h : DbgMetadata.Inv ss.cache ∧ DbgMetadata.Distinct ss.cache)
    (hr : Session.step σ ss call = .ok ss1) :
    (DbgMetadata.Inv ss1.cache ∧ DbgMetadata.Distinct ss1.cache) ∧
    (Call.parses call = false → ss1.cache.ea_to_line = ss.cache.ea_to_line) := by
  cases call with
  | cache op =>
    simp only [Session.step] at hr
    cases hc : DbgMetadata.step σ ss.cache op with
    | error e => rw [hc] at hr; cases hr
    | ok s1 =>
      rw [hc] at hr
      cases hr
      refine ⟨⟨DbgMetadata.Inv_step σ _ s1 op h.1 hc, DbgMetadata.Distinct_step σ _ s1 op h.2 hc⟩,
        ?_⟩
      intro hp
      cases op with
      | Parse filename file => simp [Call.parses] at hp
      | AddDir a b => simp [Call.parses] at hp
      | AddEa fn ea l => simp [Call.parses] at hp
      | CreateDummyProgram f =>
        simp only [DbgMetadata.step] at hc
        cases hd : DbgMetadata.CreateDummyProgram σ ss.cache f with
        | error e => rw [hd] at hc; cases hc
        | ok p =>
          rw [hd] at hc
          cases hc
          exact (DbgMetadata.CreateDummyProgram_frame σ _ p.2 f p.1 hd).1
      | CreateEaMetadata f ea => exact (DbgMetadata.CreateEaMetadata_frame σ _ s1 f ea hc).1
      | Fetch f ea =>
        simp only [DbgMetadata.step] at hc
        cases hd : DbgMetadata.Fetch σ ss.cache f ea with
        | error e => rw [hd] at hc; cases hc
        | ok p =>
          rw [hd] at hc
          cases hc
          exact (DbgMetadata.Fetch_frame σ _ p.2 f ea p.1 hd).1
      | Petrify =>
        simp only [DbgMetadata.step] at hc
        cases hc
        unfold DbgMetadata.Petrify
        rw [DbgMetadata.Petrify_fields]
  | SetCtx func =>
    simp only [Session.step] at hr
    cases hc : DbgMetadata.SetCtx func with
    | error e => rw [hc] at hr; cases hr
    | ok p => rw [hc] at hr; cases hr; exact ⟨h, fun _ => rfl⟩
  | SetBlock new_b =>
    simp only [Session.step] at hr
    cases hr; exact ⟨h, fun _ => rfl⟩
  | emit b new =>
    simp only [Session.step] at hr
    cases hr; exact ⟨h, fun _ => rfl⟩
  | Annotate f ea =>
    simp only [Session.step, DbgMetadata.Annotate] at hr
    cases hf : DbgMetadata.Fetch σ ss.cache f ea with
    | error e => rw [hf] at hr; cases hr
    | ok p =>
      obtain ⟨r, s1⟩ := p
      rw [hf] at hr
      simp only [] at hr
      cases hp : Ctx.PropagateForward ss.ctx ss.body r with
      | error e => rw [hp] at hr; cases hr
      | ok q =>
        rw [hp] at hr
        cases hr
        obtain ⟨e1, n1⟩ := DbgMetadata.Fetch_frame σ _ s1 f ea r hf
        exact ⟨⟨DbgMetadata.Inv_Fetch σ _ s1 f ea r h.1 hf, n1 h.2⟩, fun _ => e1⟩
  | OneBlockAnnotate f bb ea =>
    simp only [Session.step, DbgMetadata.OneBlockAnnotate] at hr
    cases hf : DbgMetadata.Fetch σ ss.cache f ea with
    | error e => rw [hf] at hr; cases hr
    | ok p =>
      obtain ⟨r, s1⟩ := p
      rw [hf] at hr
      simp only [] at hr
      cases hb : ss.body[bb]? with
      | none => rw [hb] at hr; cases hr
      | some b =>
        rw [hb] at hr
        cases hr
        obtain ⟨e1, n1⟩ := DbgMetadata.Fetch_frame σ _ s1 f ea r hf
        exact ⟨⟨DbgMetadata.Inv_Fetch σ _ s1 f ea r h.1 hf, n1 h.2⟩, fun _ => e1⟩

theorem Session.run_cache (σ : Layout) (calls : List Call) :
    ∀ ss ss1 : Session, DbgMetadata.Inv ss.cache ∧ DbgMetadata.Distinct ss.cache →
      Session.run σ ss calls = .ok ss1 →
      DbgMetadata.Inv ss1.cache ∧ DbgMetadata.Distinct ss1.cache := by
  induction calls with
  | nil => intro ss ss1 h hr; cases hr; exact h
  | cons call rest ih =>
    intro ss ss1 h hr
    unfold Session.run at hr
    cases hs : Session.step σ ss call with
    | error e => rw [hs] at hr; cases hr
    | ok ss2 =>
      rw [hs] at hr
      exact ih ss2 ss1 (Session.step_cache σ ss ss2 call h hs).1 hr

/-- C15: in every state that a lifting session reaches from the empty cache by `Parse`,
`CreateDummyProgram`, `Fetch`, `Annotate`, `OneBlockAnnotate`, `Petrify` (and the other
calls of a session), a function has a location map exactly when it has a subprogram
node, with at most one entry per function; every entry of every location map is at an
address of the address-to-line table and its location has the table's line; and a call
other than `Parse` (with `AddDir`, `AddEa`) leaves the address-to-line table as it is. -/
theorem C15_cache_invariant (σ : Layout) (body : List BasicBlock) (calls : List Call)
    (ss : Session) (hs : Session.run σ (Session.init body) calls = .ok ss) :
    (∀ f, (UMap.find ss.cache.ea_to_dbg f).isSome = true ↔
      ∃ d, UMap.find ss.cache._func_to_dbg f = some (some d)) ∧
    (ss.cache._func_to_dbg.map Prod.fst).Nodup ∧
    (∀ f m e, UMap.find ss.cache.ea_to_dbg f = some m → e ∈ m →
      ∃ line, UMap.find ss.cache.ea_to_line e.1 = some line ∧ e.2.line = line) ∧
    (∀ call ss1, Session.step σ ss call = .ok ss1 → Call.parses call = false →
      ss1.cache.ea_to_line = ss.cache.ea_to_line) := by
  have hinit : DbgMetadata.Inv (Session.init body).cache ∧
      DbgMetadata.Distinct (Session.init body).cache :=
    ⟨DbgMetadata.Inv_init, List.nodup_nil⟩
  obtain ⟨h, hn⟩ := Session.run_cache σ calls _ ss hinit hs
  refine ⟨?_, hn, ?_, ?_⟩
  · intro f
    rw [h.both f]
    constructor
    · intro hsome
      obtain ⟨sp, hsp⟩ := Option.isSome_iff_exists.mp hsome
      obtain ⟨d, hd⟩ := Option.isSome_iff_exists.mp (h.nonnull f sp hsp).1
      exact ⟨d, by rw [hsp, hd]⟩
    · intro hd
      obtain ⟨d, hd⟩ := hd
      rw [hd]; rfl
  · intro f m e hm he
    obtain ⟨ho, hlocs⟩ := h.locs f m hm
    have hfind : Lines.find m e.1 = some e.2 := Lines.find_of_mem m e.1 e.2 ho he
    obtain ⟨line, hline, hloc⟩ := hlocs e.1 e.2 hfind
    refine ⟨line, hline, ?_⟩
    rw [hloc]
    exact Nat.mod_eq_of_lt (h.lines32 e.1 line hline)
  · intro call ss1 hstep hp
    exact (Session.step_cache σ ss ss1 call ⟨h, hn⟩ hstep).2 hp

/-- Witness of `C15_cache_invariant`: the sample session, which parses, creates a
subprogram, annotates and petrifies. -/
theorem C15_cache_invariant_witness :
    ∃ ss, Session.run Sample.layout (Session.init Sample.bodyTwo) Sample.session = .ok ss ∧
      (∀ f, (UMap.find ss.cache.ea_to_dbg f).isSome = true ↔
        ∃ d, UMap.find ss.cache._func_to_dbg f = some (some d)) ∧
      (ss.cache._func_to_dbg.map Prod.fst).Nodup ∧
      (∀ f m e, UMap.find ss.cache.ea_to_dbg f = some m → e ∈ m →
        ∃ line, UMap.find ss.cache.ea_to_line e.1 = some line ∧ e.2.line = line) ∧
      (∀ call ss1, Session.step Sample.layout ss call = .ok ss1 → Call.parses call = false →
        ss1.cache.ea_to_line = ss.cache.ea_to_line) := by
  have hok : (Session.run Sample.layout (Session.init Sample.bodyTwo)
      Sample.session).isOk = true := by decide
  cases hrun : Session.run Sample.layout (Session.init Sample.bodyTwo) Sample.session with
  | error e => rw [hrun] at hok; cases hok
  | ok ss =>
    exact ⟨ss, rfl, C15_cache_invariant Sample.layout Sample.bodyTwo Sample.session ss hrun⟩

end mcsema
